import Mathlib

/-!
The package `mfile`, a memory-mapped file, and the node arena built on it.

A verification development for the Go package `mfile` (src/mfile.go) and the
example program `mtree` (src/examples/mtree/mtree.go).

Part one embeds the mapped-file handle.  The operating system is an explicit
state (`Kernel`): the on-disk length of the backing file, the open
descriptors, the live mappings, and the trace of system calls made so far.
Whether a system call succeeds is not decided by the program, so the kernel
carries an `oracle` that answers the n-th call; every theorem quantifies over
all oracles.

Part two embeds the node arena of `mtree`: the header record at offset 0, the
node records addressed by byte offset, the recursive walk with a mutating
visitor, and the operations built on it.  The program takes the pointer to the
header once, when it opens the store, and every `addNode` remaps the file;
where the kernel puts the new mapping is an input of `addNode` (`Remap`), and
a run in which the mapping has moved is followed no further (`Run.adrift`).
-/

set_option autoImplicit false

namespace Mfile

/-! ## Errors -/

/-- A non-nil Go error: an errno from a system call, a cause wrapped with a
label (`errors.Wrap`), or two errors joined (`multierror.Append`). -/
inductive Err where
  | errno (code : Nat)
  | wrap (label : String) (cause : Err)
  | multi (e1 e2 : Err)
  deriving DecidableEq, Repr

/-- A Go `error` value; `none` is `nil`. -/
abbrev Error := Option Err

/-- Source `labelErr`: `errors.Wrap(err, label)`, which is nil when `err` is nil. -/
def labelErr (err : Error) (label : String) : Error :=
  err.map (Err.wrap label)

/-- Source `mergeErr`.  The last case is the `default` branch of the source:
`e1` nil and `e2` non-nil. -/
def mergeErr (e1 e2 : Error) : Error :=
  match e1, e2 with
  | some a, none => some a
  | none, none => none
  | some a, some b => some (Err.multi a b)
  | none, some b => some b

/-! ## The kernel -/

/-- What the kernel answers to one system call: success with a value (the new
descriptor for `open`, the address for `mmap`, ignored otherwise) or an errno. -/
inductive Reply where
  | ok (val : Nat)
  | fail (code : Nat)
  deriving DecidableEq, Repr

/-- A system call as it appears in the trace. -/
inductive Call where
  | close (fd : Nat)
  | munmap (addr len : Nat)
  | openCreate
  | ftruncate (fd : Nat) (size : Int)
  | stat
  | mmap (fd : Nat) (size : Int)
  | madvise (addr len : Nat)
  deriving DecidableEq, Repr

/-- The part of the operating system the handle talks to. -/
structure Kernel where
  /-- on-disk length of the backing file; `none` while the file does not exist -/
  disk : Option Nat
  /-- descriptors currently open -/
  fds : List Nat
  /-- live mappings, as (address, length) -/
  maps : List (Nat × Nat)
  /-- system calls made so far, oldest first -/
  trace : List Call
  /-- the answer the kernel gives to the n-th system call -/
  oracle : Nat → Reply

def EINVAL : Nat := 22
def ENOENT : Nat := 2

/-- The answer to the call about to be made. -/
def Kernel.reply (k : Kernel) : Reply := k.oracle k.trace.length

/-- Records a call in the trace. -/
def Kernel.record (k : Kernel) (c : Call) : Kernel :=
  { k with trace := k.trace ++ [c] }

/-- `syscall.Close(fd)`. -/
def sysClose (fd : Nat) (k : Kernel) : Error × Kernel :=
  match k.reply with
  | Reply.ok _ => (none, { k.record (Call.close fd) with fds := k.fds.erase fd })
  | Reply.fail e => (some (Err.errno e), k.record (Call.close fd))

/-- `syscall.Munmap(buf)`. -/
def sysMunmap (buf : Nat × Nat) (k : Kernel) : Error × Kernel :=
  match k.reply with
  | Reply.ok _ => (none, { k.record (Call.munmap buf.1 buf.2) with maps := k.maps.erase buf })
  | Reply.fail e => (some (Err.errno e), k.record (Call.munmap buf.1 buf.2))

/-- `syscall.Open(filename, O_CREATE|O_RDWR, 0600)`: creates the file, empty,
when it does not exist. -/
def sysOpen (k : Kernel) : Except Err Nat × Kernel :=
  match k.reply with
  | Reply.ok fd =>
    (Except.ok fd,
      { k.record Call.openCreate with disk := some (k.disk.getD 0), fds := fd :: k.fds })
  | Reply.fail e => (Except.error (Err.errno e), k.record Call.openCreate)

/-- `syscall.Ftruncate(fd, size)`: a negative length is EINVAL. -/
def sysFtruncate (fd : Nat) (size : Int) (k : Kernel) : Error × Kernel :=
  if size < 0 then (some (Err.errno EINVAL), k.record (Call.ftruncate fd size))
  else
    match k.reply with
    | Reply.ok _ => (none, { k.record (Call.ftruncate fd size) with disk := some size.toNat })
    | Reply.fail e => (some (Err.errno e), k.record (Call.ftruncate fd size))

/-- `syscall.Stat(filename, &stat)`, returning `stat.Size`. -/
def sysStat (k : Kernel) : Except Err Nat × Kernel :=
  match k.reply, k.disk with
  | Reply.ok _, some c => (Except.ok c, k.record Call.stat)
  | Reply.ok _, none => (Except.error (Err.errno ENOENT), k.record Call.stat)
  | Reply.fail e, _ => (Except.error (Err.errno e), k.record Call.stat)

/-- `syscall.Mmap(fd, 0, size, PROT_WRITE|PROT_READ, MAP_SHARED)`: a length
that is not positive is EINVAL; on success the result is a byte slice of
length `size` at the address the kernel chose. -/
def sysMmap (fd : Nat) (size : Int) (k : Kernel) : Except Err (Nat × Nat) × Kernel :=
  if size ≤ 0 then (Except.error (Err.errno EINVAL), k.record (Call.mmap fd size))
  else
    match k.reply with
    | Reply.ok addr =>
      (Except.ok (addr, size.toNat),
        { k.record (Call.mmap fd size) with maps := (addr, size.toNat) :: k.maps })
    | Reply.fail e => (Except.error (Err.errno e), k.record (Call.mmap fd size))

/-- `syscall.Madvise(buf, MADV_RANDOM)`. -/
def sysMadvise (buf : Nat × Nat) (k : Kernel) : Error × Kernel :=
  match k.reply with
  | Reply.ok _ => (none, k.record (Call.madvise buf.1 buf.2))
  | Reply.fail e => (some (Err.errno e), k.record (Call.madvise buf.1 buf.2))

/-! ## The handle -/

/-- Source `File`.  `buf` is the mapped slice: `none` is nil, `some (addr, len)`
a slice of `len` bytes at `addr`. -/
structure File where
  filename : String
  fd : Nat
  buf : Option (Nat × Nat)
  size : Nat
  data : Nat
  deriving DecidableEq, Repr

/-- Source `nilPtr`. -/
def nilPtr : Nat := 0

/-- Source `File.Close`. -/
def File.Close (m : File) (k : Kernel) : Error × File × Kernel :=
  let err : Error := none
  let s1 : Error × File × Kernel :=
    if m.fd ≠ 0 then
      let r := sysClose m.fd k
      (mergeErr err (labelErr r.1 "could not close file"), { m with fd := 0 }, r.2)
    else (err, m, k)
  let s2 : Error × File × Kernel :=
    match s1.2.1.buf with
    | some b =>
      let r := sysMunmap b s1.2.2
      (mergeErr s1.1 (labelErr r.1 "could not Munmap file"), { s1.2.1 with buf := none }, r.2)
    | none => s1
  (s2.1, { s2.2.1 with size := 0, data := nilPtr }, s2.2.2)

/-- Source `closeWithErr`, with the closer a `File`. -/
def closeWithErr (err : Error) (m : File) (k : Kernel) : Error × File × Kernel :=
  let r := m.Close k
  (mergeErr err (labelErr r.1 "could not close"), r.2.1, r.2.2)

/-- Source `File.reopenFile`. -/
def File.reopenFile (m : File) (k : Kernel) : Error × File × Kernel :=
  let c := m.Close k
  match c.1 with
  | some e => (labelErr (some e) "could not close open file", c.2.1, c.2.2)
  | none =>
    match sysOpen c.2.2 with
    | (Except.error e, k1) => (labelErr (some e) "could not open file", c.2.1, k1)
    | (Except.ok fd, k1) => (none, { c.2.1 with fd := fd }, k1)

/-- Source `File.mmap`. -/
def File.mmap (m : File) (size : Int) (k : Kernel) : Error × File × Kernel :=
  match sysMmap m.fd size k with
  | (Except.error e, k1) => (labelErr (some e) "could not mmap file descriptor", m, k1)
  | (Except.ok buf, k1) =>
    match sysMadvise buf k1 with
    | (some e, k2) => closeWithErr (labelErr (some e) "could not perform SYS_MADVISE") m k2
    | (none, k2) => (none, { m with buf := some buf, size := buf.2, data := buf.1 }, k2)

/-- Source `File.truncate`. -/
def File.truncate (m : File) (size : Int) (k : Kernel) : Error × Kernel :=
  let r := sysFtruncate m.fd size k
  (labelErr r.1 "could not perform SYS_FTRUNCATE", r.2)

/-- Source `File.Resize`. -/
def File.Resize (m : File) (size : Int) (k : Kernel) : Error × File × Kernel :=
  match m.reopenFile k with
  | (some e, m1, k1) => (labelErr (some e) "could not reopen file", m1, k1)
  | (none, m1, k1) =>
    match m1.truncate size k1 with
    | (some e, k2) => closeWithErr (labelErr (some e) "could not truncate file") m1 k2
    | (none, k2) =>
      match m1.mmap size k2 with
      | (some e, m3, k3) => closeWithErr (labelErr (some e) "could not mmap file") m3 k3
      | (none, m3, k3) => (none, m3, k3)

/-- Source `File.ResizeMinimum`; the `goto performMmap` is the branch that
skips the truncation. -/
def File.ResizeMinimum (m : File) (size : Int) (k : Kernel) : Error × File × Kernel :=
  match m.reopenFile k with
  | (some e, m1, k1) => (labelErr (some e) "could not reopen file", m1, k1)
  | (none, m1, k1) =>
    match sysStat k1 with
    | (Except.error e, k2) => closeWithErr (labelErr (some e) "could not stat file") m1 k2
    | (Except.ok statSize, k2) =>
      let t : Error × Kernel :=
        if (statSize : Int) ≥ size then (none, k2) else m1.truncate size k2
      match t with
      | (some e, k3) => closeWithErr (labelErr (some e) "could not truncate file") m1 k3
      | (none, k3) =>
        match m1.mmap size k3 with
        | (some e, m4, k4) => closeWithErr (labelErr (some e) "could not mmap file") m4 k4
        | (none, m4, k4) => (none, m4, k4)

/-- Source `Open`: the handle is returned only when `ResizeMinimum` succeeds. -/
def Open (filename : String) (size : Int) (k : Kernel) : Option File × Error × Kernel :=
  let m : File := { filename := filename, fd := 0, buf := none, size := 0, data := 0 }
  match m.ResizeMinimum size k with
  | (some e, m1, k1) =>
    let r := closeWithErr (labelErr (some e) "could not resize file") m1 k1
    (none, r.1, r.2.2)
  | (none, m1, k1) => (some m1, none, k1)

/-- Source `File.Len`. -/
def File.Len (m : File) : Int := m.size

/-- A kernel in which the backing file does not exist yet and nothing is open. -/
def Kernel.fresh (oracle : Nat → Reply) : Kernel :=
  { disk := none, fds := [], maps := [], trace := [], oracle := oracle }

/-- An oracle under which every call succeeds, with 4096 as the descriptor or
address handed out. -/
def allOk : Nat → Reply := fun _ => Reply.ok 4096

/-- The handle a program holds before its first `Open`. -/
def closedHandle (path : String) : File :=
  { filename := path, fd := 0, buf := none, size := 0, data := 0 }

/-- The handle `Open("f", 200)` returns when every call succeeds. -/
def handle200 : File :=
  { filename := "f", fd := 4096, buf := some (4096, 200), size := 200, data := 4096 }

/-- Every system call made from now on is answered with success. -/
def Kernel.AllOk (k : Kernel) : Prop := ∀ i, ∃ v, k.oracle i = Reply.ok v

/-- An oracle under which the fourth system call fails with ENOMEM and every
other call succeeds.  From a closed handle the calls of `Resize` are open,
ftruncate, mmap, madvise: the failing one is the madvise. -/
def madviseFails : Nat → Reply := fun i => if i = 3 then Reply.fail 12 else Reply.ok 4096

end Mfile


/-! # Part two: the node arena of `mtree` -/

namespace Mtree

/-- Source constant `magic`. -/
def magic : Nat := 0xbbcde160

/-- Source constant `version`. -/
def version : Nat := 1

/-- Source `nodeSize = unsafe.Sizeof(Node{})` on a 64-bit platform: a 4-byte
rune padded to 8 bytes, then two 8-byte references. -/
def nodeSize : Nat := 24

/-- Source `headerSize = unsafe.Sizeof(Header{})` on a 64-bit platform: 4 bytes
of magic, 2 of version, 2 of padding, then two 8-byte fields. -/
def headerSize : Nat := 24

/-- Source `Header`, the record at offset 0 of the file. -/
structure Header where
  magic : Nat
  version : Nat
  length : Nat
  root : Nat
  deriving DecidableEq, Repr

/-- Source `Node`; `value` is a rune, `left` and `right` are byte offsets into
the file, 0 meaning no child. -/
structure Node where
  value : Int
  left : Nat
  right : Nat
  deriving DecidableEq, Repr

/-- The node records of the mapped file, by byte offset: `mem p` is what
`(*Node)(m.DataAt(p))` points to.  The records read are those at the offsets
`headerSize + i * nodeSize` handed out by `putNode`; they do not overlap one
another or the header.  As in the source, a read is not checked against the
length of the mapping. -/
abbrev Mem := Nat → Node

/-- Writing a node record at an offset. -/
def setNode (mem : Mem) (offset : Nat) (node : Node) : Mem :=
  fun p => if p = offset then node else mem p

/-- Source `App`: `header` is the pointer `a.header` (`none` is nil) with the
record it points to, `mem` the records reached through `a.m`, `mapped` the
length `a.m.Len()` of the current mapping.  The pointer `a.header` is taken
once, in `open`, and views offset 0 of the mapping made there; an `App`
describes the program only while the mapping is at that address (see
`Remap`). -/
structure App where
  header : Option Header
  mem : Mem
  mapped : Nat

/-- Source `App.open`, from the point where `mfile.Open` has succeeded, applied
to the header record of the file.  `mfile.Open(a.filename, int(headerSize))`
maps `headerSize` bytes whatever the length of the file, so `mapped` is
`headerSize` and of an existing store only the header lies inside the mapping;
`mem` is what the addresses after it hold, which `open` neither reads nor
maps.  A panic is an `Except.error` carrying the panic message. -/
def App.open (header : Header) (mem : Mem) : Except String App :=
  if header.magic = 0 then
    Except.ok
      { header := some { header with magic := magic, version := version, length := headerSize },
        mem := mem, mapped := headerSize }
  else if header.magic ≠ magic then Except.error "magic number invalid"
  else if header.version ≠ version then Except.error "unsupported version"
  else Except.ok { header := some header, mem := mem, mapped := headerSize }

/-- Source `main` of `mbtree`: the same header check, on the header alone. -/
def mbtreeMain (header : Header) : Except String Header :=
  if header.magic = 0 then
    Except.ok { header with magic := magic, version := version, length := headerSize }
  else if header.magic ≠ magic then Except.error "magic number invalid"
  else if header.version ≠ version then Except.error "unsupported version"
  else Except.ok header

/-- Source `App.getNode`. -/
def App.getNode (a : App) (offset : Nat) : Node := a.mem offset

/-- A Go closure `func(*Node)` passed to `walk`: it receives the pointer (as
the offset of the record), reads the record and the variables it captured, and
may write both. -/
abbrev Visitor (σ : Type) := Nat → Node → σ → Node × σ

/-- Source `App.walkFrom`.  The first argument bounds the recursion depth;
`none` means the bound was exceeded.  As in the source, `n.left` is read after
`f(n)` has run, and `n.right` after the walk of the left child has returned. -/
def walkFrom {σ : Type} (f : Visitor σ) : Nat → Nat → Mem × σ → Option (Mem × σ)
  | 0, _, _ => none
  | fuel + 1, n, st =>
    let r := f n (st.1 n) st.2
    let st1 : Mem × σ := (setNode st.1 n r.1, r.2)
    let afterLeft : Option (Mem × σ) :=
      if (st1.1 n).left ≠ 0 then walkFrom f fuel (st1.1 n).left st1 else some st1
    match afterLeft with
    | none => none
    | some st2 =>
      if (st2.1 n).right ≠ 0 then walkFrom f fuel (st2.1 n).right st2 else some st2

/-- Source `App.walk`. -/
def App.walk {σ : Type} (a : App) (fuel : Nat) (f : Visitor σ) (s : σ) : Option (App × σ) :=
  match a.header with
  | none => some (a, s)
  | some h =>
    if h.root = 0 then some (a, s)
    else
      match walkFrom f fuel h.root (a.mem, s) with
      | none => none
      | some st => some ({ a with mem := st.1 }, st.2)

/-- The closure of `collectNodeValues`: `out = append(out, string(n.value))`. -/
def collectValuesVisitor : Visitor (List Int) :=
  fun _ n out => (n, out ++ [n.value])

/-- Source `App.collectNodeValues`. -/
def App.collectNodeValues (a : App) (fuel : Nat) : Option (List Int) :=
  match a.walk fuel collectValuesVisitor [] with
  | none => none
  | some r => some r.2

/-- The first closure of `detectOrphans`: `nodes[ptr] = struct{}{}` with `ptr`
the offset of the node from the header. -/
def collectOffsetsVisitor : Visitor (List Nat) :=
  fun ptr n nodes => (n, nodes ++ [ptr])

/-- The offsets `walk` hands to its visitor, in the order of the calls. -/
def App.visited (a : App) (fuel : Nat) : Option (List Nat) :=
  match a.walk fuel collectOffsetsVisitor [] with
  | none => none
  | some r => some r.2

/-- The closure of `addNode`: a node whose value is `parentVal` gets the new
offset as its left or right child. -/
def linkVisitor (parentVal : Int) (isLeft : Bool) (offset : Nat) : Visitor Unit :=
  fun _ node s =>
    if node.value ≠ parentVal then (node, s)
    else if isLeft then ({ node with left := offset }, s)
    else ({ node with right := offset }, s)

/-- The closure of `updateNode`: a node whose value is `nodeVal` gets the value
`newName`. -/
def updateVisitor (nodeVal newName : Int) : Visitor Unit :=
  fun _ node s =>
    if node.value ≠ nodeVal then (node, s) else ({ node with value := newName }, s)

/-- What the kernel does at the `Resize` and `Sync` inside `putNode`, seen
from `a.header`.  `Resize` unmaps the file and maps it again; the source does
not take `a.header` again afterwards.  `kept`: both calls succeed and the new
mapping starts at the address the old one had, so `a.header` still views the
header record.  `moved`: both succeed and the new mapping starts elsewhere, so
`a.header` dangles.  `failed`: one of them returns an error. -/
inductive Remap where
  | kept
  | moved
  | failed
  deriving DecidableEq, Repr

/-- How a call that remaps ends.  `ret x`: it returns normally, with `x`.
`noReturn`: it does not return normally (a panic, or a recursion deeper than
any bound).  `adrift`: the mapping has moved and the source goes on reading
and writing through the dangling `a.header`; no `App` describes the program
from there on and the run is not followed further. -/
inductive Run (α : Type) where
  | ret (x : α)
  | noReturn
  | adrift

/-- A call that does not remap: it returns or it does not. -/
def Run.ofOption {α : Type} : Option α → Run α
  | some x => Run.ret x
  | none => Run.noReturn

/-- The value of a call that returned normally. -/
def Run.toOption {α : Type} : Run α → Option α
  | Run.ret x => some x
  | Run.noReturn => none
  | Run.adrift => none

/-- Source `App.putNode`.  When the new size `offset + nodeSize` does not fit
the `int` that `Resize` takes, the truncation is rejected or the write lands
outside the mapping; when `Resize` or `Sync` fails, `putNode` returns the
error and its only caller, `addNode`, panics: in both cases the call does not
return normally.  Otherwise `Resize(offset + nodeSize)` has mapped the whole
file anew, so `mapped` becomes `offset + nodeSize`, and the node is written at
`offset`.  When the mapping has moved, `putNode` itself still writes the node
and returns, but `a.header` dangles from then on: `adrift`. -/
def App.putNode (a : App) (node : Node) (offset : Nat) (remap : Remap) : Run (Nat × App) :=
  if offset + nodeSize < 2 ^ 63 then
    match remap with
    | Remap.kept =>
      Run.ret (offset,
        { a with mem := setNode a.mem offset node, mapped := offset + nodeSize })
    | Remap.moved => Run.adrift
    | Remap.failed => Run.noReturn
  else Run.noReturn

/-- The allocation step of source `App.addNode` (the `append` of the
specification): `putNode` at `header.length`, then
`header.length += nodeSize` through `a.header`. -/
def App.appendNode (a : App) (newName : Int) (remap : Remap) : Run (Nat × App) :=
  match a.header with
  | none => Run.noReturn
  | some h =>
    match a.putNode { value := newName, left := 0, right := 0 } h.length remap with
    | Run.ret r =>
      Run.ret (r.1, { r.2 with header := some { h with length := h.length + nodeSize } })
    | Run.noReturn => Run.noReturn
    | Run.adrift => Run.adrift

/-- The branch `parent == 0` of source `App.addNode` (the `linkAsRoot` of the
specification): `a.header.root = offset`. -/
def App.linkAsRoot (a : App) (offset : Nat) : Option App :=
  match a.header with
  | none => none
  | some h => some { a with header := some { h with root := offset } }

/-- The other branch of source `App.addNode` (the `linkAsChild` of the
specification): the walk with the linking closure. -/
def App.linkAsChild (a : App) (fuel : Nat) (parentVal : Int) (offset : Nat) (isLeft : Bool) :
    Option App :=
  match a.walk fuel (linkVisitor parentVal isLeft offset) () with
  | none => none
  | some r => some r.1

/-- Source `App.addNode`.  The prompts are inputs: `newName` is the value typed
for the new node, `parent` the menu choice (`none` for the entry "root",
`some parentVal` for the value of the chosen node), `isLeft` the side.  The
call of `collectNodeValues` that fills the menu reads the store and is left
out.  `remap` is what the kernel does at the one `Resize` of the call. -/
def App.addNode (a : App) (fuel : Nat) (newName : Int) (parent : Option Int) (isLeft : Bool)
    (remap : Remap) : Run App :=
  match a.appendNode newName remap with
  | Run.ret (offset, a1) =>
    match parent with
    | none => Run.ofOption (a1.linkAsRoot offset)
    | some parentVal => Run.ofOption (a1.linkAsChild fuel parentVal offset isLeft)
  | Run.noReturn => Run.noReturn
  | Run.adrift => Run.adrift

/-- Source `App.updateNode` (the `updateValue` of the specification), with the
chosen value `nodeVal` and the typed value `newName` as inputs; the call of
`collectNodeValues` that fills the menu reads the store and is left out. -/
def App.updateNode (a : App) (fuel : Nat) (nodeVal newName : Int) : Option App :=
  match a.walk fuel (updateVisitor nodeVal newName) () with
  | none => none
  | some r => some r.1

/-- One line logged by the scan of `detectOrphans`: "node i is reachable." or
"node i at ptr with value v is not reachable." -/
inductive OrphanLine where
  | reachable (index : Nat)
  | notReachable (index ptr : Nat) (value : Int)
  deriving DecidableEq, Repr

/-- The scan loop of source `App.detectOrphans`:
`for ptr := headerSize; ptr < length; ptr += nodeSize`.  The first argument
bounds the number of iterations; `index` is the index the next slot gets. -/
def detectOrphansLoop (a : App) (nodes : List Nat) (length : Nat) :
    Nat → Nat → Nat → List OrphanLine
  | 0, _, _ => []
  | fuel + 1, ptr, index =>
    if ptr < length then
      (if ptr ∈ nodes then OrphanLine.reachable index
        else OrphanLine.notReachable index ptr (a.getNode ptr).value)
        :: detectOrphansLoop a nodes length fuel (ptr + nodeSize) (index + 1)
    else []

/-- Source `App.detectOrphans`, returning the lines of the scan.  The loop
runs at most `length` times, since `ptr` grows by `nodeSize` each time. -/
def App.detectOrphans (a : App) (fuel : Nat) : Option (List OrphanLine) :=
  match a.walk fuel collectOffsetsVisitor [] with
  | none => none
  | some r =>
    match r.1.header with
    | none => none
    | some h => some (detectOrphansLoop r.1 r.2 h.length h.length headerSize 0)

/-! ## Notions used to state the properties -/

/-- A finite binary tree of node offsets. -/
inductive Tree where
  | nil
  | node (off : Nat) (l r : Tree)
  deriving DecidableEq, Repr

/-- Depth-first pre-order: the node, its left subtree, its right subtree. -/
def Tree.preorder : Tree → List Nat
  | Tree.nil => []
  | Tree.node p l r => p :: (l.preorder ++ r.preorder)

/-- Number of nodes on the longest path from the root. -/
def Tree.depth : Tree → Nat
  | Tree.nil => 0
  | Tree.node _ l r => max l.depth r.depth + 1

/-- The child references reachable from reference `c` form the tree `t`:
`c` is 0 for the empty tree, and otherwise the offset of the root, whose left
and right references form the two subtrees. -/
def Shape (mem : Mem) : Nat → Tree → Prop
  | c, Tree.nil => c = 0
  | c, Tree.node p l r => c ≠ 0 ∧ c = p ∧ Shape mem (mem p).left l ∧ Shape mem (mem p).right r

/-- Node `q` is reachable from reference `c` through child references. -/
inductive Reach (mem : Mem) : Nat → Nat → Prop where
  | here (p : Nat) : p ≠ 0 → Reach mem p p
  | left (p q : Nat) : p ≠ 0 → Reach mem (mem p).left q → Reach mem p q
  | right (p q : Nat) : p ≠ 0 → Reach mem (mem p).right q → Reach mem p q

/-- Offset `p` is a node slot of a store whose allocation length is `length`. -/
def IsSlot (length p : Nat) : Prop :=
  headerSize ≤ p ∧ p < length ∧ (p - headerSize) % nodeSize = 0

/-- The child reference of a node on the chosen side. -/
def Node.side (n : Node) (isLeft : Bool) : Nat := if isLeft then n.left else n.right

/-- A node with the child reference on the chosen side replaced. -/
def Node.setSide (n : Node) (isLeft : Bool) (offset : Nat) : Node :=
  if isLeft then { n with left := offset } else { n with right := offset }

/-- One call of the visitor on the node at `p`, as `walkFrom` makes it. -/
def visitStep {σ : Type} (f : Visitor σ) (st : Mem × σ) (p : Nat) : Mem × σ :=
  (setNode st.1 p (f p (st.1 p) st.2).1, (f p (st.1 p) st.2).2)

/-- The visitor never changes the child references of the node it is given. -/
def KeepsLinks {σ : Type} (f : Visitor σ) : Prop :=
  ∀ p n s, (f p n s).1.left = n.left ∧ (f p n s).1.right = n.right

/-- The store after the linking closure has run on the nodes listed in `S`:
those holding `v` have the chosen child reference set to `o`. -/
def linkAll (v : Int) (isLeft : Bool) (o : Nat) (mem : Mem) (S : List Nat) : Mem :=
  fun p => if p ∈ S ∧ (mem p).value = v then (mem p).setSide isLeft o else mem p

/-- The part of a tree the linking walk still reaches: below a node holding
`v` the subtree on the chosen side is cut off, since the closure overwrites
that reference before the walk reads it. -/
def Tree.prune (mem : Mem) (v : Int) (isLeft : Bool) : Tree → Tree
  | Tree.nil => Tree.nil
  | Tree.node p l r =>
    if (mem p).value = v then
      if isLeft then Tree.node p Tree.nil (r.prune mem v isLeft)
      else Tree.node p (l.prune mem v isLeft) Tree.nil
    else Tree.node p (l.prune mem v isLeft) (r.prune mem v isLeft)

/-- The shape of a store as the linking walk sees it: as `Shape`, except that
at a node holding `v` the chosen child reference is not looked at and the
tree has nothing there. -/
def PrunedShape (v : Int) (isLeft : Bool) (mem : Mem) : Nat → Tree → Prop
  | c, Tree.nil => c = 0
  | c, Tree.node p l r =>
    c ≠ 0 ∧ c = p ∧
    ((mem p).value = v → isLeft = true → l = Tree.nil ∧ PrunedShape v isLeft mem (mem p).right r) ∧
    ((mem p).value = v → isLeft = false → r = Tree.nil ∧ PrunedShape v isLeft mem (mem p).left l) ∧
    ((mem p).value ≠ v →
      PrunedShape v isLeft mem (mem p).left l ∧ PrunedShape v isLeft mem (mem p).right r)

/-- A file of zero bytes, as `Ftruncate` leaves a new file. -/
def zeroMem : Mem := fun _ => { value := 0, left := 0, right := 0 }

/-- The header of a file of zero bytes. -/
def zeroHeader : Header := { magic := 0, version := 0, length := 0, root := 0 }

/-- The store `open` yields on a new file. -/
def freshApp : App :=
  { header := some { magic := magic, version := version, length := headerSize, root := 0 },
    mem := zeroMem, mapped := headerSize }

/-- The scenario of the specification, run on a new store: `linkAsRoot(r)`,
`linkAsChild(valueAtR, n1, left)`, `linkAsChild(valueAtR, n2, right)`, each
after the `append` that yields its offset; `va`, `vb`, `vc` are the values of
the three nodes.  The mapping keeps its address throughout. -/
def threeNodes (fuel : Nat) (va vb vc : Int) : Run App :=
  match freshApp.addNode fuel va none true Remap.kept with
  | Run.ret a1 =>
    match a1.addNode fuel vb (some va) true Remap.kept with
    | Run.ret a2 => a2.addNode fuel vc (some va) false Remap.kept
    | Run.noReturn => Run.noReturn
    | Run.adrift => Run.adrift
  | Run.noReturn => Run.noReturn
  | Run.adrift => Run.adrift

/-- The store of the scenario after its first step. -/
def scenario1 (va : Int) : App :=
  { header := some { magic := magic, version := version, length := 48, root := 24 },
    mem := fun p => if p = 24 then { value := va, left := 0, right := 0 } else zeroMem p,
    mapped := 48 }

/-- The store of the scenario after its second step. -/
def scenario2 (va vb : Int) : App :=
  { header := some { magic := magic, version := version, length := 72, root := 24 },
    mem := fun p =>
      if p = 24 then { value := va, left := 48, right := 0 }
      else if p = 48 then { value := vb, left := 0, right := 0 }
      else zeroMem p,
    mapped := 72 }

/-- The store of the scenario after its third step. -/
def scenario3 (va vb vc : Int) : App :=
  { header := some { magic := magic, version := version, length := 96, root := 24 },
    mem := fun p =>
      if p = 24 then { value := va, left := 48, right := 72 }
      else if p = 48 then { value := vb, left := 0, right := 0 }
      else if p = 72 then { value := vc, left := 0, right := 0 }
      else zeroMem p,
    mapped := 96 }

/-- The tree of the scenario: root at 24, children at 48 and 72. -/
def scenarioTree : Tree :=
  Tree.node 24 (Tree.node 48 Tree.nil Tree.nil) (Tree.node 72 Tree.nil Tree.nil)

/-- A store with one node, of value 65, as root. -/
def oneNode : App :=
  { header := some { magic := magic, version := version, length := 48, root := 24 },
    mem := setNode zeroMem 24 { value := 65, left := 0, right := 0 },
    mapped := 48 }

/-- A header with a foreign magic number. -/
def foreignHeader : Header := { magic := 7, version := 1, length := 48, root := 24 }

/-- A header of this format, of a later version. -/
def laterHeader : Header := { magic := 0xbbcde160, version := 2, length := 48, root := 24 }

/-- A header of this format and version. -/
def goodHeader : Header := { magic := 0xbbcde160, version := 1, length := 48, root := 24 }

/-- A header whose magic is zero and whose root reference is not. -/
def staleHeader : Header := { magic := 0, version := 0, length := 0, root := 48 }

/-- A store, built by the program, in which two nodes hold the value 65: the
root at 24 and its left child at 48. -/
def dupStore : Option App :=
  (freshApp.addNode 5 65 none true Remap.kept).toOption.bind fun a =>
    (a.addNode 5 66 (some 65) true Remap.kept).toOption.bind fun b => b.updateNode 5 66 65

/-- The tree after a link that attaches the new node `o` below every node
holding `v` whose chosen child slot was empty. -/
def Tree.graft (mem : Mem) (v : Int) (isLeft : Bool) (o : Nat) : Tree → Tree
  | Tree.nil => Tree.nil
  | Tree.node p l r =>
    if (mem p).value = v then
      if isLeft then Tree.node p (Tree.node o Tree.nil Tree.nil) (r.graft mem v isLeft o)
      else Tree.node p (l.graft mem v isLeft o) (Tree.node o Tree.nil Tree.nil)
    else Tree.node p (l.graft mem v isLeft o) (r.graft mem v isLeft o)

/-- The stores the program builds from a new store by `addNode` steps during
which the mapping keeps its address (so that `a.header`, taken in `open`,
stays the header of the store) and that attach each new node at an empty
place: as root only while the tree is empty; as a child only under a parent
value that some reachable node holds, every reachable node holding it having
the chosen child slot empty, and that differs from the value of the new
node. -/
inductive Built : App → Prop where
  | fresh : Built freshApp
  | addRoot (a a2 : App) (h : Header) (fuel : Nat) (newName : Int) (isLeft : Bool) :
      Built a → a.header = some h → h.root = 0 →
      a.addNode fuel newName none isLeft Remap.kept = Run.ret a2 → Built a2
  | addChild (a a2 : App) (h : Header) (fuel : Nat) (newName parentVal : Int) (isLeft : Bool) :
      Built a → a.header = some h →
      (∃ p, Reach a.mem h.root p ∧ (a.mem p).value = parentVal) →
      (∀ p, Reach a.mem h.root p → (a.mem p).value = parentVal → (a.mem p).side isLeft = 0) →
      newName ≠ parentVal →
      a.addNode fuel newName (some parentVal) isLeft Remap.kept = Run.ret a2 → Built a2

/-- What holds of every store in `Built`: the store has the shape of a tree
whose nodes are exactly the slots below the allocation length, the length is
the header plus `n` nodes, the tree is at most `n` deep, and the mapping
covers the store up to the allocation length. -/
def SlotsInTree (a : App) (h : Header) (t : Tree) (n : Nat) : Prop :=
  a.header = some h ∧ Shape a.mem h.root t ∧ (∀ p, p ∈ t.preorder ↔ IsSlot h.length p) ∧
    h.length = headerSize + nodeSize * n ∧ t.depth ≤ n ∧ a.mapped = h.length

/-- The line the scan of `detectOrphans` logs for slot `j`. -/
def scanLine (a : App) (nodes : List Nat) (j : Nat) : OrphanLine :=
  if headerSize + nodeSize * j ∈ nodes then OrphanLine.reachable j
  else OrphanLine.notReachable j (headerSize + nodeSize * j)
    (a.getNode (headerSize + nodeSize * j)).value

/-- A store built with `linkAsRoot` twice: value 65 at 24, then value 66 at 48,
each added as root. -/
def twoRoots : Option App :=
  (freshApp.addNode 5 65 none true Remap.kept).toOption.bind fun a =>
    (a.addNode 5 66 none true Remap.kept).toOption

end Mtree
/-! ## Theorems about the handle -/

namespace Mfile

/-! ### Errors -/

theorem labelErr_some (e : Err) (l : String) : labelErr (some e) l = some (Err.wrap l e) := rfl

theorem labelErr_none (l : String) : labelErr none l = none := rfl

theorem labelErr_eq_none {e : Error} {l : String} : labelErr e l = none ↔ e = none := by
  cases e <;> simp [labelErr]

theorem mergeErr_some_left (a : Err) (e : Error) : mergeErr (some a) e ≠ none := by
  cases e <;> simp [mergeErr]

theorem mergeErr_none_left (e : Error) : mergeErr none e = e := by
  cases e <;> simp [mergeErr]

/-! ### What each system call does to the file length -/

theorem sysClose_disk (fd : Nat) (k : Kernel) : (sysClose fd k).2.disk = k.disk := by
  unfold sysClose; split <;> rfl

theorem sysMunmap_disk (b : Nat × Nat) (k : Kernel) : (sysMunmap b k).2.disk = k.disk := by
  unfold sysMunmap; split <;> rfl

theorem sysMadvise_disk (b : Nat × Nat) (k : Kernel) : (sysMadvise b k).2.disk = k.disk := by
  unfold sysMadvise; split <;> rfl

theorem sysMmap_disk (fd : Nat) (n : Int) (k : Kernel) : (sysMmap fd n k).2.disk = k.disk := by
  unfold sysMmap; split
  · rfl
  · split <;> rfl

theorem sysStat_disk (k : Kernel) : (sysStat k).2.disk = k.disk := by
  unfold sysStat; split <;> rfl

theorem sysStat_ok {k k1 : Kernel} {c : Nat} (h : sysStat k = (Except.ok c, k1)) :
    k.disk = some c ∧ k1.disk = some c := by
  unfold sysStat at h
  split at h <;> simp at h
  obtain ⟨rfl, rfl⟩ := h
  rename_i hd
  exact ⟨hd, hd⟩

theorem sysOpen_ok {k k1 : Kernel} {fd : Nat} (h : sysOpen k = (Except.ok fd, k1)) :
    k1.disk = some (k.disk.getD 0) := by
  unfold sysOpen at h
  split at h <;> simp at h
  obtain ⟨_, rfl⟩ := h
  rfl

theorem sysFtruncate_ok {fd : Nat} {n : Int} {k k1 : Kernel}
    (h : sysFtruncate fd n k = (none, k1)) : 0 ≤ n ∧ k1.disk = some n.toNat := by
  unfold sysFtruncate at h
  split at h
  · simp at h
  · rename_i hn
    split at h <;> simp at h
    subst h
    exact ⟨by omega, rfl⟩

theorem sysMmap_ok {fd : Nat} {n : Int} {k k1 : Kernel} {b : Nat × Nat}
    (h : sysMmap fd n k = (Except.ok b, k1)) : 0 < n ∧ b.2 = n.toNat := by
  unfold sysMmap at h
  split at h
  · simp at h
  · rename_i hn
    split at h <;> simp at h
    obtain ⟨rfl, _⟩ := h
    exact ⟨by omega, rfl⟩

/-! ### Close -/

theorem Close_file (m : File) (k : Kernel) :
    (m.Close k).2.1 = { filename := m.filename, fd := 0, buf := none, size := 0, data := 0 } := by
  unfold File.Close
  by_cases hfd : m.fd ≠ 0 <;> cases hb : m.buf <;> simp [hfd, hb, nilPtr]
  · simp at hfd; simp [hfd]
  · simp at hfd; simp [hfd]

theorem Close_disk (m : File) (k : Kernel) : (m.Close k).2.2.disk = k.disk := by
  unfold File.Close
  by_cases hfd : m.fd ≠ 0 <;> cases hb : m.buf <;>
    simp [hfd, hb, sysClose_disk, sysMunmap_disk]

theorem Close_closed (m : File) (k : Kernel) (hfd : m.fd = 0) (hb : m.buf = none) :
    m.Close k = (none, { m with size := 0, data := 0 }, k) := by
  unfold File.Close
  simp [hfd, hb, nilPtr]

theorem closeWithErr_file (e : Error) (m : File) (k : Kernel) :
    (closeWithErr e m k).2.1 =
      { filename := m.filename, fd := 0, buf := none, size := 0, data := 0 } := by
  unfold closeWithErr
  exact Close_file m k

theorem closeWithErr_ne_none (e : Err) (m : File) (k : Kernel) :
    (closeWithErr (some e) m k).1 ≠ none := by
  unfold closeWithErr
  exact mergeErr_some_left _ _

/-! ### The steps of a resize -/

theorem reopenFile_ok {m m1 : File} {k k1 : Kernel} (h : m.reopenFile k = (none, m1, k1)) :
    k1.disk = some (k.disk.getD 0) ∧ m1.buf = none := by
  unfold File.reopenFile at h
  dsimp only at h
  split at h
  · simp [labelErr] at h
  · split at h
    · simp [labelErr] at h
    · rename_i hopen
      simp at h
      obtain ⟨rfl, rfl⟩ := h
      refine ⟨?_, ?_⟩
      · rw [sysOpen_ok hopen, Close_disk]
      · simp [Close_file]

theorem truncate_ok {m : File} {n : Int} {k k1 : Kernel} (h : m.truncate n k = (none, k1)) :
    0 ≤ n ∧ k1.disk = some n.toNat := by
  unfold File.truncate at h
  simp only [Prod.mk.injEq, labelErr_eq_none] at h
  apply @sysFtruncate_ok m.fd n k k1
  ext1
  · exact h.1
  · exact h.2

theorem mmap_ok {m m1 : File} {n : Int} {k k1 : Kernel} (h : m.mmap n k = (none, m1, k1)) :
    0 < n ∧ k1.disk = k.disk ∧ m1.size = n.toNat := by
  unfold File.mmap at h
  split at h
  · simp [labelErr] at h
  · rename_i buf k2 hmap
    split at h
    · exact absurd (congrArg Prod.fst h) (by simpa [labelErr_some] using closeWithErr_ne_none _ _ _)
    · rename_i k3 hadv
      simp at h
      obtain ⟨rfl, rfl⟩ := h
      have h1 := sysMmap_ok hmap
      have h2 := sysMmap_disk m.fd n k
      have h3 := sysMadvise_disk buf k2
      rw [hmap] at h2
      rw [hadv] at h3
      simp at h2 h3
      exact ⟨h1.1, by rw [h3, h2], h1.2⟩

theorem Resize_ok {m : File} {n : Int} {k : Kernel} (h : (m.Resize n k).1 = none) :
    0 < n ∧ (m.Resize n k).2.2.disk = some n.toNat ∧ (m.Resize n k).2.1.size = n.toNat := by
  unfold File.Resize at h ⊢
  split at h
  · simp [labelErr] at h
  · rename_i m1 k1 hre
    split at h
    · exact absurd h (by simpa [labelErr_some] using closeWithErr_ne_none _ _ _)
    · rename_i k2 htr
      split at h
      · exact absurd h (by simpa [labelErr_some] using closeWithErr_ne_none _ _ _)
      · rename_i m3 k3 hmm
        have h2 := truncate_ok htr
        have h3 := mmap_ok hmm
        exact ⟨h3.1, by rw [h3.2.1]; exact h2.2, h3.2.2⟩

theorem ResizeMinimum_ok {m : File} {n : Int} {k : Kernel}
    (h : (m.ResizeMinimum n k).1 = none) :
    0 < n ∧ (m.ResizeMinimum n k).2.2.disk = some (max (k.disk.getD 0) n.toNat) ∧
      (m.ResizeMinimum n k).2.1.size = n.toNat := by
  unfold File.ResizeMinimum at h ⊢
  split at h
  · simp [labelErr] at h
  · rename_i m1 k1 hre
    split at h
    · exact absurd h (by simpa [labelErr_some] using closeWithErr_ne_none _ _ _)
    · rename_i c k2 hst
      have hc := sysStat_ok hst
      have hk1 := (reopenFile_ok hre).1
      rw [hk1] at hc
      have hcc : k.disk.getD 0 = c := by simpa using hc.1
      dsimp only at h ⊢
      split at h
      · exact absurd h (by simpa [labelErr_some] using closeWithErr_ne_none _ _ _)
      · rename_i k3 htr
        split at h
        · exact absurd h (by simpa [labelErr_some] using closeWithErr_ne_none _ _ _)
        · rename_i m4 k4 hmm
          have h3 := mmap_ok hmm
          refine ⟨h3.1, ?_, h3.2.2⟩
          rw [h3.2.1, hcc]
          by_cases hge : (c : Int) ≥ n
          · simp only [hge, if_true, Prod.mk.injEq] at htr
            rw [← htr.2, hc.2]
            congr 1
            omega
          · simp only [hge, if_false] at htr
            have h2 := truncate_ok htr
            rw [h2.2]
            congr 1
            omega

theorem Open_ok {path : String} {n : Int} {k : Kernel} {m1 : File}
    (h : (Open path n k).1 = some m1) :
    0 < n ∧ (Open path n k).2.2.disk = some (max (k.disk.getD 0) n.toNat) ∧ m1.size = n.toNat := by
  unfold Open at h ⊢
  dsimp only at h ⊢
  split at h
  · simp at h
  · rename_i m2 k2 hrm
    simp only [hrm]
    simp only [Option.some.injEq] at h
    subst h
    have hrm1 : (File.ResizeMinimum
        { filename := path, fd := 0, buf := none, size := 0, data := 0 } n k).1 = none := by
      rw [hrm]
    have := ResizeMinimum_ok hrm1
    rw [hrm] at this
    exact this

theorem Resize_exact_size_aux {m : File} {n : Int} {k : Kernel}
    (h : (m.Resize n k).1 = none) :
    (m.Resize n k).2.2.disk.map Int.ofNat = some n := by
  obtain ⟨hn, hd, _⟩ := Resize_ok h
  rw [hd]
  simp only [Option.map_some', Option.some.injEq]
  exact Int.toNat_of_nonneg (le_of_lt hn)

/-- Claim C1.  Whenever `Resize(n)` returns without an error, the backing file
is exactly `n` bytes long, whatever the handle and the kernel were before (so
whatever the previous length: smaller, equal or larger).  The handle returned
by `Open(path, s1)` on a fresh path is one such handle. -/
theorem Resize_exact_size (m : File) (n : Int) (k : Kernel)
    (h : (m.Resize n k).1 = none) :
    (m.Resize n k).2.2.disk.map Int.ofNat = some n := by
  obtain ⟨hn, hd, _⟩ := Resize_ok h
  rw [hd]
  simp only [Option.map_some', Option.some.injEq]
  exact Int.toNat_of_nonneg (le_of_lt hn)

/-- Claim C2.  When the backing file has `c` bytes (0 when it does not exist
yet) and `ResizeMinimum(n)` returns without an error, the file has `max c n`
bytes: `c` when `c >= n`, `n` when `c < n`.  A second `ResizeMinimum(n)` that
also returns without an error leaves that length as it is. -/
theorem ResizeMinimum_size (m : File) (n : Int) (k : Kernel) (c : Nat)
    (hc : k.disk.getD 0 = c) (h : (m.ResizeMinimum n k).1 = none) :
    (m.ResizeMinimum n k).2.2.disk.map Int.ofNat = some (max (c : Int) n) ∧
    (((m.ResizeMinimum n k).2.1.ResizeMinimum n (m.ResizeMinimum n k).2.2).1 = none →
      ((m.ResizeMinimum n k).2.1.ResizeMinimum n (m.ResizeMinimum n k).2.2).2.2.disk =
        (m.ResizeMinimum n k).2.2.disk) := by
  obtain ⟨hn, hd, _⟩ := ResizeMinimum_ok h
  refine ⟨?_, ?_⟩
  · rw [hd, hc]
    simp only [Option.map_some', Option.some.injEq]
    have : ((n.toNat : Nat) : Int) = n := Int.toNat_of_nonneg (le_of_lt hn)
    show ((max c n.toNat : Nat) : Int) = max (c : Int) n
    rw [Nat.cast_max, this]
  · intro h2
    obtain ⟨_, hd2, _⟩ := ResizeMinimum_ok h2
    rw [hd2, hd]
    simp

theorem Open_200 : (Open "f" 200 (Kernel.fresh allOk)).1 = some handle200 := by decide

/-- Instance of C1: `Open("f", 200)` on a fresh path, then `Resize(300)`. -/
theorem Resize_exact_size_witness :
    (handle200.Resize 300 (Open "f" 200 (Kernel.fresh allOk)).2.2).2.2.disk.map Int.ofNat
      = some 300 :=
  Resize_exact_size handle200 300 (Open "f" 200 (Kernel.fresh allOk)).2.2 (by decide)

/-- Instance of C2: the file has 200 bytes, `ResizeMinimum(100)` keeps them. -/
theorem ResizeMinimum_size_witness :
    (handle200.ResizeMinimum 100 (Open "f" 200 (Kernel.fresh allOk)).2.2).2.2.disk.map Int.ofNat
      = some (max ((200 : Nat) : Int) 100) :=
  (ResizeMinimum_size handle200 100 (Open "f" 200 (Kernel.fresh allOk)).2.2 200
    (by decide) (by decide)).1

/-- Counterexample to C3 as stated: after `Open("f", 200)` the file has 200
bytes; a successful `ResizeMinimum(100)` skips the truncation and maps 100
bytes, so `Len()` is 100 while the file is still 200 bytes long. -/
theorem Len_differs_from_disk_length :
    (handle200.ResizeMinimum 100 (Open "f" 200 (Kernel.fresh allOk)).2.2).1 = none ∧
    (handle200.ResizeMinimum 100 (Open "f" 200 (Kernel.fresh allOk)).2.2).2.1.Len = 100 ∧
    (handle200.ResizeMinimum 100 (Open "f" 200 (Kernel.fresh allOk)).2.2).2.2.disk = some 200 := by
  decide

/-- Claim C3, amended.  After every successful `Resize(n)`, `ResizeMinimum(n)`
or `Open(path, n)`, `Len()` is the requested size `n`.  The file is `n` bytes
long after `Resize`, and `max c n` bytes long after `ResizeMinimum` and `Open`,
where `c` is its length before the call (0 when it did not exist): there
`Len()` is the on-disk length exactly when `c <= n`. -/
theorem Len_eq_requested_size :
    (∀ (m : File) (n : Int) (k : Kernel), (m.Resize n k).1 = none →
      (m.Resize n k).2.1.Len = n ∧ (m.Resize n k).2.2.disk.map Int.ofNat = some n) ∧
    (∀ (m : File) (n : Int) (k : Kernel), (m.ResizeMinimum n k).1 = none →
      (m.ResizeMinimum n k).2.1.Len = n ∧
      (m.ResizeMinimum n k).2.2.disk.map Int.ofNat = some (max ((k.disk.getD 0 : Nat) : Int) n) ∧
      ((m.ResizeMinimum n k).2.2.disk.map Int.ofNat = some (m.ResizeMinimum n k).2.1.Len ↔
        ((k.disk.getD 0 : Nat) : Int) ≤ n)) ∧
    (∀ (path : String) (n : Int) (k : Kernel) (m1 : File), (Open path n k).1 = some m1 →
      m1.Len = n ∧
      (Open path n k).2.2.disk.map Int.ofNat = some (max ((k.disk.getD 0 : Nat) : Int) n) ∧
      ((Open path n k).2.2.disk.map Int.ofNat = some m1.Len ↔
        ((k.disk.getD 0 : Nat) : Int) ≤ n)) := by
  refine ⟨?_, ?_, ?_⟩
  · intro m n k h
    obtain ⟨hn, _, hs⟩ := Resize_ok h
    refine ⟨?_, Resize_exact_size_aux h⟩
    unfold File.Len
    rw [hs]
    exact Int.toNat_of_nonneg (le_of_lt hn)
  · intro m n k h
    obtain ⟨hn, hd, hs⟩ := ResizeMinimum_ok h
    have hnn : ((n.toNat : Nat) : Int) = n := Int.toNat_of_nonneg (le_of_lt hn)
    have hlen : (m.ResizeMinimum n k).2.1.Len = n := by
      unfold File.Len
      rw [hs]
      exact hnn
    refine ⟨hlen, ?_, ?_⟩
    · rw [hd]
      show some ((max (k.disk.getD 0) n.toNat : Nat) : Int) = _
      rw [Nat.cast_max, hnn]
    · rw [hd, hlen]
      show some ((max (k.disk.getD 0) n.toNat : Nat) : Int) = some n ↔ _
      rw [Nat.cast_max, hnn]
      simp
  · intro path n k m1 h
    obtain ⟨hn, hd, hs⟩ := Open_ok h
    have hnn : ((n.toNat : Nat) : Int) = n := Int.toNat_of_nonneg (le_of_lt hn)
    have hlen : m1.Len = n := by
      unfold File.Len
      rw [hs]
      exact hnn
    refine ⟨hlen, ?_, ?_⟩
    · rw [hd]
      show some ((max (k.disk.getD 0) n.toNat : Nat) : Int) = _
      rw [Nat.cast_max, hnn]
    · rw [hd, hlen]
      show some ((max (k.disk.getD 0) n.toNat : Nat) : Int) = some n ↔ _
      rw [Nat.cast_max, hnn]
      simp

/-- Instances of the amended C3 on the 200-byte file: `Resize(300)`,
`ResizeMinimum(300)`, and the `Open("f", 200)` that made the file. -/
theorem Len_eq_requested_size_witness :
    (handle200.Resize 300 (Open "f" 200 (Kernel.fresh allOk)).2.2).2.1.Len = 300 ∧
    (handle200.ResizeMinimum 300 (Open "f" 200 (Kernel.fresh allOk)).2.2).2.1.Len = 300 ∧
    handle200.Len = 200 :=
  ⟨(Len_eq_requested_size.1 handle200 300 (Open "f" 200 (Kernel.fresh allOk)).2.2
      (by decide)).1,
    (Len_eq_requested_size.2.1 handle200 300 (Open "f" 200 (Kernel.fresh allOk)).2.2
      (by decide)).1,
    (Len_eq_requested_size.2.2 "f" 200 (Kernel.fresh allOk) handle200 Open_200).1⟩

/-- Claim C4.  Whatever the handle and the kernel, and whether or not `Close`
reports an error, the handle is closed afterwards (fd = 0, buf = nil,
size = 0, data = 0); a `Close` that follows immediately makes no system call
(the kernel, its trace included, is as it was), leaves the handle as it is and
returns nil. -/
theorem Close_idempotent (m : File) (k : Kernel) :
    (m.Close k).2.1.fd = 0 ∧ (m.Close k).2.1.buf = none ∧
    (m.Close k).2.1.size = 0 ∧ (m.Close k).2.1.data = nilPtr ∧
    (m.Close k).2.1.Close (m.Close k).2.2 = (none, (m.Close k).2.1, (m.Close k).2.2) ∧
    ((m.Close k).2.1.Close (m.Close k).2.2).2.2.trace = (m.Close k).2.2.trace := by
  have hf := Close_file m k
  have hc := Close_closed (m.Close k).2.1 (m.Close k).2.2 (by rw [hf]) (by rw [hf])
  refine ⟨by rw [hf], by rw [hf], by rw [hf], by rw [hf]; rfl, ?_, ?_⟩
  · rw [hc, hf]
  · rw [hc]

/-- Evidence for C5 (the code leaks a mapping).  `Resize(100)` on a closed
handle, with every call succeeding except the madvise: `Resize` returns an
error and the handle is reset, the descriptor is closed, but the 100-byte
mapping that mmap established is still live, and the trace shows that no
munmap was ever attempted. -/
theorem Resize_madvise_failure_leaks_mapping :
    ((closedHandle "f").Resize 100 (Kernel.fresh madviseFails)).1 ≠ none ∧
    ((closedHandle "f").Resize 100 (Kernel.fresh madviseFails)).2.1 = closedHandle "f" ∧
    ((closedHandle "f").Resize 100 (Kernel.fresh madviseFails)).2.2.fds = [] ∧
    ((closedHandle "f").Resize 100 (Kernel.fresh madviseFails)).2.2.maps = [(4096, 100)] ∧
    ((closedHandle "f").Resize 100 (Kernel.fresh madviseFails)).2.2.trace =
      [Call.openCreate, Call.ftruncate 4096 100, Call.mmap 4096 100,
        Call.madvise 4096 100, Call.close 4096] := by
  decide

theorem reopenFile_filename (m : File) (k : Kernel) :
    (m.reopenFile k).2.1.filename = m.filename := by
  unfold File.reopenFile
  dsimp only
  split
  · simp [Close_file]
  · split <;> simp [Close_file]

theorem reopenFile_error {m : File} {k : Kernel} (h : (m.reopenFile k).1 ≠ none) :
    (m.reopenFile k).2.1 = closedHandle m.filename := by
  unfold File.reopenFile at h ⊢
  dsimp only at h ⊢
  split
  · simp [Close_file, closedHandle]
  · rename_i hc
    simp only [hc] at h
    split
    · simp [Close_file, closedHandle]
    · rename_i ho
      simp [ho] at h

theorem mmap_filename (m : File) (n : Int) (k : Kernel) :
    (m.mmap n k).2.1.filename = m.filename := by
  unfold File.mmap
  split
  · rfl
  · split
    · rw [closeWithErr_file]
    · rfl

/-- The part of C5 that the code keeps: whenever `Resize` or `ResizeMinimum`
returns an error, the fields of the handle are all reset. -/
theorem Resize_error_resets_handle (m : File) (n : Int) (k : Kernel) :
    ((m.Resize n k).1 ≠ none → (m.Resize n k).2.1 = closedHandle m.filename) ∧
    ((m.ResizeMinimum n k).1 ≠ none → (m.ResizeMinimum n k).2.1 = closedHandle m.filename) := by
  have hfn := reopenFile_filename m k
  refine ⟨?_, ?_⟩
  · intro h
    unfold File.Resize at h ⊢
    split at h
    · rename_i e m1 k1 hre
      have := reopenFile_error (m := m) (k := k) (by rw [hre]; simp)
      rw [hre] at this
      exact this
    · rename_i m1 k1 hre
      rw [hre] at hfn
      simp only at hfn
      split at h
      · rw [closeWithErr_file, hfn]; rfl
      · split at h
        · rename_i k2 _ _ e m3 k3 hmm
          have h3 := mmap_filename m1 n k2
          rw [hmm] at h3
          simp only at h3
          rw [closeWithErr_file, h3, hfn]; rfl
        · simp at h
  · intro h
    unfold File.ResizeMinimum at h ⊢
    split at h
    · rename_i e m1 k1 hre
      have := reopenFile_error (m := m) (k := k) (by rw [hre]; simp)
      rw [hre] at this
      exact this
    · rename_i m1 k1 hre
      rw [hre] at hfn
      simp only at hfn
      split at h
      · rw [closeWithErr_file, hfn]; rfl
      · dsimp only at h ⊢
        split at h
        · rw [closeWithErr_file, hfn]; rfl
        · split at h
          · rename_i k3 _ _ e m4 k4 hmm
            have h3 := mmap_filename m1 n k3
            rw [hmm] at h3
            simp only at h3
            rw [closeWithErr_file, h3, hfn]; rfl
          · simp at h

/-! ### When every system call succeeds -/

theorem AllOk_reply {k : Kernel} (h : k.AllOk) : ∃ v, k.reply = Reply.ok v := h _

theorem sysClose_AllOk {k : Kernel} (h : k.AllOk) (fd : Nat) :
    (sysClose fd k).1 = none ∧ (sysClose fd k).2.AllOk := by
  obtain ⟨v, hv⟩ := AllOk_reply h
  unfold sysClose
  rw [hv]
  exact ⟨rfl, h⟩

theorem sysMunmap_AllOk {k : Kernel} (h : k.AllOk) (b : Nat × Nat) :
    (sysMunmap b k).1 = none ∧ (sysMunmap b k).2.AllOk := by
  obtain ⟨v, hv⟩ := AllOk_reply h
  unfold sysMunmap
  rw [hv]
  exact ⟨rfl, h⟩

theorem sysMadvise_AllOk {k : Kernel} (h : k.AllOk) (b : Nat × Nat) :
    (sysMadvise b k).1 = none ∧ (sysMadvise b k).2.AllOk := by
  obtain ⟨v, hv⟩ := AllOk_reply h
  unfold sysMadvise
  rw [hv]
  exact ⟨rfl, h⟩

theorem sysOpen_AllOk {k : Kernel} (h : k.AllOk) :
    ∃ fd k1, sysOpen k = (Except.ok fd, k1) ∧ k1.AllOk := by
  obtain ⟨v, hv⟩ := AllOk_reply h
  unfold sysOpen
  rw [hv]
  exact ⟨v, _, rfl, h⟩

theorem sysFtruncate_AllOk {k : Kernel} (h : k.AllOk) (fd : Nat) (n : Int) (hn : 0 ≤ n) :
    (sysFtruncate fd n k).1 = none ∧ (sysFtruncate fd n k).2.AllOk := by
  obtain ⟨v, hv⟩ := AllOk_reply h
  unfold sysFtruncate
  rw [if_neg (by omega), hv]
  exact ⟨rfl, h⟩

theorem sysStat_AllOk {k : Kernel} (h : k.AllOk) (c : Nat) (hc : k.disk = some c) :
    ∃ k1, sysStat k = (Except.ok c, k1) ∧ k1.AllOk := by
  obtain ⟨v, hv⟩ := AllOk_reply h
  unfold sysStat
  rw [hv, hc]
  exact ⟨_, rfl, h⟩

theorem sysMmap_AllOk {k : Kernel} (h : k.AllOk) (fd : Nat) (n : Int) (hn : 0 < n) :
    ∃ b k1, sysMmap fd n k = (Except.ok b, k1) ∧ k1.AllOk := by
  obtain ⟨v, hv⟩ := AllOk_reply h
  unfold sysMmap
  rw [if_neg (by omega), hv]
  exact ⟨_, _, rfl, h⟩

theorem Close_AllOk {k : Kernel} (h : k.AllOk) (m : File) :
    (m.Close k).1 = none ∧ (m.Close k).2.2.AllOk := by
  unfold File.Close
  by_cases hfd : m.fd ≠ 0
  · have c1 := sysClose_AllOk h m.fd
    cases hb : m.buf with
    | none => simp [hfd, hb, c1.1, c1.2, labelErr, mergeErr]
    | some b =>
      have c2 := sysMunmap_AllOk c1.2 b
      simp [hfd, hb, c1.1, c2.1, c2.2, labelErr, mergeErr]
  · cases hb : m.buf with
    | none => simp [hfd, hb, h]
    | some b =>
      have c2 := sysMunmap_AllOk h b
      simp [hfd, hb, c2.1, c2.2, labelErr, mergeErr]

theorem reopenFile_AllOk {k : Kernel} (h : k.AllOk) (m : File) :
    (m.reopenFile k).1 = none ∧ (m.reopenFile k).2.2.AllOk := by
  obtain ⟨c1, c2⟩ := Close_AllOk h m
  obtain ⟨fd, k1, ho, hk1⟩ := sysOpen_AllOk c2
  unfold File.reopenFile
  simp only [c1, ho]
  exact ⟨trivial, hk1⟩

theorem truncate_AllOk {k : Kernel} (h : k.AllOk) (m : File) (n : Int) (hn : 0 ≤ n) :
    (m.truncate n k).1 = none ∧ (m.truncate n k).2.AllOk := by
  obtain ⟨c1, c2⟩ := sysFtruncate_AllOk h m.fd n hn
  unfold File.truncate
  simp only [c1, labelErr_none]
  exact ⟨trivial, c2⟩

theorem mmap_AllOk {k : Kernel} (h : k.AllOk) (m : File) (n : Int) (hn : 0 < n) :
    (m.mmap n k).1 = none := by
  obtain ⟨b, k1, hm, hk1⟩ := sysMmap_AllOk h m.fd n hn
  obtain ⟨c1, _⟩ := sysMadvise_AllOk hk1 b
  unfold File.mmap
  simp only [hm]
  cases hadv : sysMadvise b k1 with
  | mk e k2 =>
    rw [hadv] at c1
    simp only at c1
    subst c1
    rfl

/-- When every system call succeeds and the requested size is positive,
`Resize`, `ResizeMinimum` and `Open` return without an error. -/
theorem resize_returns_nil (m : File) (n : Int) (k : Kernel) (path : String)
    (h : k.AllOk) (hn : 0 < n) :
    (m.Resize n k).1 = none ∧ (m.ResizeMinimum n k).1 = none ∧
      (Open path n k).2.1 = none ∧ (Open path n k).1 ≠ none := by
  have hrm : ∀ m : File, (m.ResizeMinimum n k).1 = none := by
    intro m
    obtain ⟨r1, r2⟩ := reopenFile_AllOk h m
    unfold File.ResizeMinimum
    cases hre : m.reopenFile k with
    | mk e rest =>
      cases rest with
      | mk m1 k1 =>
        rw [hre] at r1 r2
        simp only at r1 r2
        subst r1
        simp only
        have hd := (reopenFile_ok hre).1
        obtain ⟨k2, hst, hk2⟩ := sysStat_AllOk r2 _ hd
        simp only [hst]
        by_cases hge : ((k.disk.getD 0 : Nat) : Int) ≥ n
        · simp only [hge, if_true]
          have := mmap_AllOk hk2 m1 n hn
          cases hmm : m1.mmap n k2 with
          | mk e3 rest3 =>
            rw [hmm] at this
            simp only at this
            subst this
            rfl
        · simp only [hge, if_false]
          obtain ⟨t1, t2⟩ := truncate_AllOk hk2 m1 n (le_of_lt hn)
          cases htr : m1.truncate n k2 with
          | mk e2 k3 =>
            rw [htr] at t1 t2
            simp only at t1 t2
            subst t1
            simp only
            have := mmap_AllOk t2 m1 n hn
            cases hmm : m1.mmap n k3 with
            | mk e3 rest3 =>
              rw [hmm] at this
              simp only at this
              subst this
              rfl
  refine ⟨?_, hrm m, ?_, ?_⟩
  · obtain ⟨r1, r2⟩ := reopenFile_AllOk h m
    unfold File.Resize
    cases hre : m.reopenFile k with
    | mk e rest =>
      cases rest with
      | mk m1 k1 =>
        rw [hre] at r1 r2
        simp only at r1 r2
        subst r1
        simp only
        obtain ⟨t1, t2⟩ := truncate_AllOk r2 m1 n (le_of_lt hn)
        cases htr : m1.truncate n k1 with
        | mk e2 k3 =>
          rw [htr] at t1 t2
          simp only at t1 t2
          subst t1
          simp only
          have := mmap_AllOk t2 m1 n hn
          cases hmm : m1.mmap n k3 with
          | mk e3 rest3 =>
            rw [hmm] at this
            simp only at this
            subst this
            rfl
  · have := hrm { filename := path, fd := 0, buf := none, size := 0, data := 0 }
    unfold Open
    dsimp only
    cases hr : File.ResizeMinimum { filename := path, fd := 0, buf := none, size := 0, data := 0 }
      n k with
    | mk e rest =>
      cases rest with
      | mk m1 k1 =>
        rw [hr] at this
        simp only at this
        subst this
        rfl
  · have := hrm { filename := path, fd := 0, buf := none, size := 0, data := 0 }
    unfold Open
    dsimp only
    cases hr : File.ResizeMinimum { filename := path, fd := 0, buf := none, size := 0, data := 0 }
      n k with
    | mk e rest =>
      cases rest with
      | mk m1 k1 =>
        rw [hr] at this
        simp only at this
        subst this
        simp

end Mfile

/-! ## Theorems about the node arena -/

namespace Mtree

/-! ### The header check -/

/-- Counterexample to C6 as stated: a header whose magic is zero and whose
root reference is 48 is initialized with the root reference left at 48, not
set to none. -/
theorem open_keeps_stale_root :
    (match App.open staleHeader zeroMem with
      | Except.ok a => a.header
      | Except.error _ => none)
      = some { magic := magic, version := version, length := headerSize, root := 48 } ∧
    mbtreeMain staleHeader
      = Except.ok { magic := magic, version := version, length := headerSize, root := 48 } :=
  ⟨rfl, rfl⟩

/-- Claim C6, amended.  For every header content: if magic is 0, the header
gets magic 0xbbcde160, version 1 and allocation length `headerSize`, and the
root reference is left as it was (so none when it was none, as in a new
file); if magic is neither 0 nor 0xbbcde160 the check fails, with the message
"magic number invalid", whatever the version; if magic is 0xbbcde160 and the
version is not 1 it fails with "unsupported version"; otherwise it succeeds
and every field is unchanged.  `mbtree` runs the same check. -/
theorem open_header_check (header : Header) (mem : Mem) :
    (header.magic = 0 →
      App.open header mem = Except.ok
        { header := some { magic := 0xbbcde160, version := 1, length := headerSize,
                           root := header.root },
          mem := mem, mapped := headerSize } ∧
      mbtreeMain header = Except.ok
        { magic := 0xbbcde160, version := 1, length := headerSize, root := header.root }) ∧
    (header.magic ≠ 0 → header.magic ≠ 0xbbcde160 →
      App.open header mem = Except.error "magic number invalid" ∧
      mbtreeMain header = Except.error "magic number invalid") ∧
    (header.magic = 0xbbcde160 → header.version ≠ 1 →
      App.open header mem = Except.error "unsupported version" ∧
      mbtreeMain header = Except.error "unsupported version") ∧
    (header.magic = 0xbbcde160 → header.version = 1 →
      App.open header mem
        = Except.ok { header := some header, mem := mem, mapped := headerSize } ∧
      mbtreeMain header = Except.ok header) := by
  refine ⟨?_, ?_, ?_, ?_⟩
  · intro h0
    simp [App.open, mbtreeMain, h0, magic, version]
  · intro h0 h1
    simp [App.open, mbtreeMain, h0, h1, magic]
  · intro h1 h2
    simp [App.open, mbtreeMain, h1, h2, magic, version]
  · intro h1 h2
    simp [App.open, mbtreeMain, h1, h2, magic, version]

/-- Instances of the amended C6: the header of a new file, a foreign magic
number, a later version, an accepted header. -/
theorem open_header_check_witness :
    App.open zeroHeader zeroMem = Except.ok
      { header := some { magic := 0xbbcde160, version := 1, length := headerSize, root := 0 },
        mem := zeroMem, mapped := headerSize } ∧
    App.open foreignHeader zeroMem = Except.error "magic number invalid" ∧
    App.open laterHeader zeroMem = Except.error "unsupported version" ∧
    App.open goodHeader zeroMem
      = Except.ok { header := some goodHeader, mem := zeroMem, mapped := headerSize } :=
  ⟨((open_header_check zeroHeader zeroMem).1 rfl).1,
    ((open_header_check foreignHeader zeroMem).2.1 (by decide) (by decide)).1,
    ((open_header_check laterHeader zeroMem).2.2.1 rfl (by decide)).1,
    ((open_header_check goodHeader zeroMem).2.2.2 rfl rfl).1⟩

/-- After `open` the mapping is `headerSize` bytes long, whatever the header
says: on a store whose allocation length is 48 the mapping ends at 24, before
the first node. -/
theorem open_maps_only_header :
    (match App.open goodHeader zeroMem with
      | Except.ok a => some (a.mapped, a.header.map Header.length)
      | Except.error _ => none) = some (24, some 48) := by
  rfl

/-! ### Memory -/

theorem setNode_same (mem : Mem) (p : Nat) (n : Node) : setNode mem p n p = n := by
  simp [setNode]

theorem setNode_other (mem : Mem) (p q : Nat) (n : Node) (h : q ≠ p) :
    setNode mem p n q = mem q := by
  simp [setNode, h]

theorem setNode_self (mem : Mem) (p : Nat) : setNode mem p (mem p) = mem := by
  funext q
  by_cases h : q = p
  · subst h; simp [setNode]
  · simp [setNode, h]

/-! ### Shapes and reachability -/

theorem Shape_zero {mem : Mem} {t : Tree} (h : Shape mem 0 t) : t = Tree.nil := by
  cases t with
  | nil => rfl
  | node p l r => simp [Shape] at h

theorem Shape_congr {mem mem2 : Mem}
    (hl : ∀ q, (mem2 q).left = (mem q).left ∧ (mem2 q).right = (mem q).right) :
    ∀ (t : Tree) (c : Nat), Shape mem c t → Shape mem2 c t := by
  intro t
  induction t with
  | nil => intro c h; simpa [Shape] using h
  | node p l r ihl ihr =>
    intro c h
    simp only [Shape] at h ⊢
    obtain ⟨h0, hp, h1, h2⟩ := h
    refine ⟨h0, hp, ?_, ?_⟩
    · rw [(hl p).1]; exact ihl _ h1
    · rw [(hl p).2]; exact ihr _ h2

theorem mem_preorder_iff_Reach {mem : Mem} :
    ∀ (t : Tree) (c : Nat), Shape mem c t → ∀ q, q ∈ t.preorder ↔ Reach mem c q := by
  intro t
  induction t with
  | nil =>
    intro c h q
    simp only [Shape] at h
    subst h
    simp only [Tree.preorder, List.not_mem_nil, false_iff]
    intro hr
    cases hr <;> contradiction
  | node p l r ihl ihr =>
    intro c h q
    simp only [Shape] at h
    obtain ⟨h0, hp, h1, h2⟩ := h
    subst hp
    simp only [Tree.preorder, List.mem_cons, List.mem_append]
    constructor
    · rintro (rfl | hq | hq)
      · exact Reach.here _ h0
      · exact Reach.left _ _ h0 ((ihl _ h1 q).1 hq)
      · exact Reach.right _ _ h0 ((ihr _ h2 q).1 hq)
    · intro hr
      cases hr with
      | here _ _ => exact Or.inl rfl
      | left _ _ _ hq => exact Or.inr (Or.inl ((ihl _ h1 q).2 hq))
      | right _ _ _ hq => exact Or.inr (Or.inr ((ihr _ h2 q).2 hq))

/-! ### The walk with a visitor that keeps the child references -/

theorem visitStep_links {σ : Type} {f : Visitor σ} (hf : KeepsLinks f) (st : Mem × σ) (p q : Nat) :
    ((visitStep f st p).1 q).left = (st.1 q).left ∧
      ((visitStep f st p).1 q).right = (st.1 q).right := by
  unfold visitStep
  by_cases h : q = p
  · subst h
    simp only [setNode_same]
    exact hf _ _ _
  · simp [setNode_other _ _ _ _ h]

theorem foldl_visitStep_links {σ : Type} {f : Visitor σ} (hf : KeepsLinks f) :
    ∀ (l : List Nat) (st : Mem × σ) (q : Nat),
      ((l.foldl (visitStep f) st).1 q).left = (st.1 q).left ∧
        ((l.foldl (visitStep f) st).1 q).right = (st.1 q).right := by
  intro l
  induction l with
  | nil => intro st q; simp
  | cons a l ih =>
    intro st q
    simp only [List.foldl_cons]
    rw [(ih _ q).1, (ih _ q).2]
    exact visitStep_links hf st a q

theorem walkFrom_succ {σ : Type} (f : Visitor σ) (fuel n : Nat) (st : Mem × σ) :
    walkFrom f (fuel + 1) n st =
      match (if ((visitStep f st n).1 n).left ≠ 0
          then walkFrom f fuel ((visitStep f st n).1 n).left (visitStep f st n)
          else some (visitStep f st n)) with
      | none => none
      | some st2 =>
        if (st2.1 n).right ≠ 0 then walkFrom f fuel (st2.1 n).right st2 else some st2 := by
  rfl

/-- With a visitor that keeps the child references, the walk from reference
`c` over a store of shape `t` runs the visitor over the pre-order of `t`. -/
theorem walkFrom_Shape {σ : Type} {f : Visitor σ} (hf : KeepsLinks f) :
    ∀ (t : Tree) (fuel c : Nat) (st : Mem × σ), Shape st.1 c t → t.depth ≤ fuel →
      (if c ≠ 0 then walkFrom f fuel c st else some st)
        = some (t.preorder.foldl (visitStep f) st) := by
  intro t
  induction t with
  | nil =>
    intro fuel c st h _
    simp only [Shape] at h
    simp [h, Tree.preorder]
  | node p l r ihl ihr =>
    intro fuel c st h hd
    simp only [Shape] at h
    obtain ⟨h0, hp, h1, h2⟩ := h
    subst hp
    simp only [Tree.depth] at hd
    obtain ⟨k, rfl⟩ : ∃ k, fuel = k + 1 := ⟨fuel - 1, by omega⟩
    have hdl : l.depth ≤ k := by omega
    have hdr : r.depth ≤ k := by omega
    simp only [h0, ne_eq, not_false_eq_true, if_true]
    rw [walkFrom_succ]
    have hl1 := fun q => visitStep_links hf st c q
    have hs1 : Shape (visitStep f st c).1 ((visitStep f st c).1 c).left l := by
      rw [(hl1 c).1]
      exact Shape_congr hl1 l _ h1
    rw [ihl k _ _ hs1 hdl]
    simp only
    have hl2 : ∀ q, ((l.preorder.foldl (visitStep f) (visitStep f st c)).1 q).left = (st.1 q).left ∧
        ((l.preorder.foldl (visitStep f) (visitStep f st c)).1 q).right = (st.1 q).right := by
      intro q
      rw [(foldl_visitStep_links hf _ _ q).1, (foldl_visitStep_links hf _ _ q).2]
      exact hl1 q
    have hs2 : Shape (l.preorder.foldl (visitStep f) (visitStep f st c)).1
        ((l.preorder.foldl (visitStep f) (visitStep f st c)).1 c).right r := by
      rw [(hl2 c).2]
      exact Shape_congr hl2 r _ h2
    rw [ihr k _ _ hs2 hdr]
    simp [Tree.preorder, List.foldl_append]

theorem App_ext {a b : App} (hh : a.header = b.header) (hm : ∀ p, a.mem p = b.mem p)
    (hl : a.mapped = b.mapped) : a = b := by
  cases a; cases b
  simp only at hh hm hl
  subst hh
  subst hl
  congr
  funext p
  exact hm p

/-- The walk of a store of shape `t`, with a visitor that keeps the child
references: the visitor runs over the pre-order of `t`. -/
theorem walk_Shape {σ : Type} {f : Visitor σ} (hf : KeepsLinks f) (a : App) (h : Header)
    (t : Tree) (fuel : Nat) (s : σ) (hh : a.header = some h) (hs : Shape a.mem h.root t)
    (hd : t.depth ≤ fuel) :
    a.walk fuel f s =
      some ({ a with mem := (t.preorder.foldl (visitStep f) (a.mem, s)).1 },
        (t.preorder.foldl (visitStep f) (a.mem, s)).2) := by
  have hw := walkFrom_Shape hf t fuel h.root (a.mem, s) hs hd
  unfold App.walk
  rw [hh]
  simp only
  by_cases h0 : h.root = 0
  · rw [h0] at hs
    have ht := Shape_zero hs
    subst ht
    simp only [h0, if_true, Tree.preorder, List.foldl_nil]
    have hae : a = { header := some h, mem := a.mem, mapped := a.mapped } :=
      App_ext hh (fun _ => rfl) rfl
    exact congrArg (fun x => some (x, s)) hae
  · simp only [h0, ne_eq, not_false_eq_true, if_true, if_false] at hw ⊢
    rw [hw]

theorem collectOffsets_keepsLinks : KeepsLinks collectOffsetsVisitor := by
  intro p n s
  exact ⟨rfl, rfl⟩

theorem foldl_collectOffsets (l : List Nat) :
    ∀ (mem : Mem) (acc : List Nat),
      l.foldl (visitStep collectOffsetsVisitor) (mem, acc) = (mem, acc ++ l) := by
  induction l with
  | nil => intro mem acc; simp
  | cons p l ih =>
    intro mem acc
    simp only [List.foldl_cons]
    have : visitStep collectOffsetsVisitor (mem, acc) p = (mem, acc ++ [p]) := by
      simp [visitStep, collectOffsetsVisitor, setNode_self]
    rw [this, ih]
    simp

theorem visited_Shape (a : App) (h : Header) (t : Tree) (fuel : Nat) (hh : a.header = some h)
    (hs : Shape a.mem h.root t) (hd : t.depth ≤ fuel) :
    a.walk fuel collectOffsetsVisitor [] = some (a, t.preorder) ∧
      a.visited fuel = some t.preorder := by
  have hw := walk_Shape collectOffsets_keepsLinks a h t fuel [] hh hs hd
  rw [foldl_collectOffsets] at hw
  simp only [List.nil_append] at hw
  refine ⟨hw, ?_⟩
  unfold App.visited
  rw [hw]

/-! ### The walk of `addNode` -/

theorem linkVisitor_eq (v : Int) (isLeft : Bool) (o p : Nat) (n : Node) (s : Unit) :
    linkVisitor v isLeft o p n s = (if n.value = v then n.setSide isLeft o else n, ()) := by
  unfold linkVisitor Node.setSide
  by_cases h : n.value = v <;> cases isLeft <;> simp [h]

theorem setSide_value (n : Node) (isLeft : Bool) (o : Nat) :
    (n.setSide isLeft o).value = n.value := by
  unfold Node.setSide; cases isLeft <;> rfl

theorem setSide_side (n : Node) (isLeft : Bool) (o : Nat) :
    (n.setSide isLeft o).side isLeft = o := by
  unfold Node.setSide Node.side; cases isLeft <;> rfl

theorem setSide_idem (n : Node) (isLeft : Bool) (o : Nat) :
    (n.setSide isLeft o).setSide isLeft o = n.setSide isLeft o := by
  unfold Node.setSide; cases isLeft <;> rfl

theorem visitStep_link (v : Int) (isLeft : Bool) (o : Nat) (st : Mem × Unit) (p : Nat) :
    visitStep (linkVisitor v isLeft o) st p =
      (setNode st.1 p (if (st.1 p).value = v then (st.1 p).setSide isLeft o else st.1 p), ()) := by
  unfold visitStep
  rw [linkVisitor_eq]

/-- Whatever the store, a walk of the linking closure that returns has changed
a node only by setting the chosen child reference of a node holding `v`. -/
theorem walkFrom_link_only (v : Int) (isLeft : Bool) (o : Nat) :
    ∀ (fuel c : Nat) (st st2 : Mem × Unit),
      walkFrom (linkVisitor v isLeft o) fuel c st = some st2 →
      ∀ p, st2.1 p = st.1 p ∨ ((st.1 p).value = v ∧ st2.1 p = (st.1 p).setSide isLeft o) := by
  intro fuel
  induction fuel with
  | zero => intro c st st2 h; simp [walkFrom] at h
  | succ k ih =>
    intro c st st2 h
    rw [walkFrom_succ] at h
    have h1 : ∀ p, (visitStep (linkVisitor v isLeft o) st c).1 p = st.1 p ∨
        ((st.1 p).value = v ∧
          (visitStep (linkVisitor v isLeft o) st c).1 p = (st.1 p).setSide isLeft o) := by
      intro p
      rw [visitStep_link]
      by_cases hp : p = c
      · subst hp
        by_cases hv : (st.1 p).value = v
        · right; simp [setNode, hv]
        · left; simp [setNode, hv]
      · left; simp [setNode, hp]
    have trans : ∀ (m1 m2 m3 : Mem),
        (∀ p, m2 p = m1 p ∨ ((m1 p).value = v ∧ m2 p = (m1 p).setSide isLeft o)) →
        (∀ p, m3 p = m2 p ∨ ((m2 p).value = v ∧ m3 p = (m2 p).setSide isLeft o)) →
        ∀ p, m3 p = m1 p ∨ ((m1 p).value = v ∧ m3 p = (m1 p).setSide isLeft o) := by
      intro m1 m2 m3 h12 h23 p
      rcases h12 p with e12 | ⟨v1, e12⟩ <;> rcases h23 p with e23 | ⟨v2, e23⟩
      · left; rw [e23, e12]
      · right; rw [e12] at v2 e23; exact ⟨v2, e23⟩
      · right; exact ⟨v1, by rw [e23, e12]⟩
      · right; exact ⟨v1, by rw [e23, e12, setSide_idem]⟩
    generalize hst1 : visitStep (linkVisitor v isLeft o) st c = st1 at h h1
    have hleft : ∀ stl, (if (st1.1 c).left ≠ 0
        then walkFrom (linkVisitor v isLeft o) k (st1.1 c).left st1 else some st1) = some stl →
        ∀ p, stl.1 p = st.1 p ∨ ((st.1 p).value = v ∧ stl.1 p = (st.1 p).setSide isLeft o) := by
      intro stl hl
      split at hl
      · exact trans _ _ _ h1 (ih _ _ _ hl)
      · simp only [Option.some.injEq] at hl
        subst hl
        exact h1
    split at h
    · simp at h
    · rename_i stl hl
      have h2 := hleft stl hl
      split at h
      · exact trans _ _ _ h2 (ih _ _ _ h)
      · simp only [Option.some.injEq] at h
        subst h
        exact h2

/-- Once a node holds `v` and the walk of the linking closure starts at the
offset being linked, the walk never returns: the node is made its own child
and the recursion follows that reference. -/
theorem walkFrom_link_self (v : Int) (isLeft : Bool) (o : Nat) (ho : o ≠ 0) :
    ∀ (fuel : Nat) (st : Mem × Unit), (st.1 o).value = v →
      walkFrom (linkVisitor v isLeft o) fuel o st = none := by
  intro fuel
  induction fuel with
  | zero => intro st _; rfl
  | succ k ih =>
    intro st hv
    rw [walkFrom_succ]
    generalize hst1 : visitStep (linkVisitor v isLeft o) st o = st1
    have h1 : st1.1 o = (st.1 o).setSide isLeft o := by
      rw [← hst1, visitStep_link]
      simp [setNode, hv]
    have hv1 : (st1.1 o).value = v := by rw [h1, setSide_value, hv]
    cases isLeft with
    | true =>
      have hl : (st1.1 o).left = o := by rw [h1]; rfl
      simp only [hl, ne_eq, ho, not_false_eq_true, if_true]
      rw [ih st1 hv1]
    | false =>
      have hr : (st1.1 o).right = o := by rw [h1]; rfl
      split
      · rfl
      · rename_i stl hl
        have hstl : stl.1 o = st1.1 o := by
          split at hl
          · rcases walkFrom_link_only v false o _ _ _ _ hl o with e | ⟨_, e⟩
            · exact e
            · rw [e, h1, setSide_idem]
          · simp only [Option.some.injEq] at hl
            rw [← hl]
        simp only [hstl, hr, ne_eq, ho, not_false_eq_true, if_true]
        exact ih stl (by rw [hstl]; exact hv1)

/-- Evidence for C10 (the code writes a self-reference and recurses without
end).  On the store with one node of value 65 as root, `addNode` with the new
value 65 under the parent value 65, the mapping keeping its address, does not
return, whatever the recursion depth allowed: the walk links the root to the
new node, steps into the new node, finds the parent value there too, makes
the node its own child and follows that reference. -/
theorem addNode_same_value_never_returns (fuel : Nat) (isLeft : Bool) :
    freshApp.addNode fuel 65 none true Remap.kept = Run.ret oneNode ∧
    oneNode.addNode fuel 65 (some 65) isLeft Remap.kept = Run.noReturn := by
  refine ⟨rfl, ?_⟩
  have happ : oneNode.appendNode 65 Remap.kept = Run.ret (48,
      { header := some { magic := magic, version := version, length := 72, root := 24 },
        mem := setNode oneNode.mem 48 { value := 65, left := 0, right := 0 },
        mapped := 72 }) := by
    simp [App.appendNode, App.putNode, oneNode, nodeSize]
  unfold App.addNode
  rw [happ]
  simp only [App.linkAsChild, App.walk]
  simp only [Nat.reduceEqDiff, if_false]
  cases fuel with
  | zero => rfl
  | succ k =>
    rw [walkFrom_succ]
    generalize hst1 : visitStep (linkVisitor 65 isLeft 48)
      (setNode oneNode.mem 48 { value := 65, left := 0, right := 0 }, ()) 24 = st1
    have h24 : st1.1 24 =
        (Node.setSide { value := 65, left := 0, right := 0 } isLeft 48) := by
      rw [← hst1, visitStep_link]
      simp [setNode, oneNode]
    have h48 : (st1.1 48).value = 65 := by
      rw [← hst1, visitStep_link]
      simp [setNode, oneNode]
    have hdiv := walkFrom_link_self 65 isLeft 48 (by decide) k st1 h48
    cases isLeft with
    | true =>
      have hl : (st1.1 24).left = 48 := by rw [h24]; rfl
      simp [hl, hdiv, Run.ofOption]
    | false =>
      have hl : (st1.1 24).left = 0 := by rw [h24]; rfl
      have hr : (st1.1 24).right = 48 := by rw [h24]; rfl
      simp [hl, hr, hdiv, Run.ofOption]

/-! ### The scenario of three nodes -/

theorem scenario_step1 (fuel : Nat) (va : Int) (b : Bool) :
    freshApp.addNode fuel va none b Remap.kept = Run.ret (scenario1 va) := by
  simp only [App.addNode, App.appendNode, App.putNode, App.linkAsRoot, freshApp, headerSize,
    nodeSize, scenario1, Run.ofOption]
  simp only [Nat.reduceAdd, Nat.reducePow, Nat.reduceLT, if_true, Run.ret.injEq]
  apply App_ext
  · rfl
  · intro p; simp [setNode]
  · rfl

theorem visitStep_link_nomatch (v : Int) (isLeft : Bool) (o : Nat) (st : Mem × Unit) (p : Nat)
    (h : (st.1 p).value ≠ v) : visitStep (linkVisitor v isLeft o) st p = st := by
  rw [visitStep_link]
  simp only [h, if_false, setNode_self]

theorem walkFrom_link_leaf (v : Int) (isLeft : Bool) (o : Nat) (k c : Nat) (st : Mem × Unit)
    (hv : (st.1 c).value ≠ v) (hl : (st.1 c).left = 0) (hr : (st.1 c).right = 0) :
    walkFrom (linkVisitor v isLeft o) (k + 1) c st = some st := by
  rw [walkFrom_succ, visitStep_link_nomatch v isLeft o st c hv]
  simp [hl, hr]

theorem scenario_step2 (fuel : Nat) (va vb : Int) :
    (scenario1 va).addNode fuel vb (some va) true Remap.kept =
      if 2 ≤ fuel ∧ vb ≠ va then Run.ret (scenario2 va vb) else Run.noReturn := by
  simp only [App.addNode, App.appendNode, App.putNode, App.linkAsChild, App.walk, scenario1,
    nodeSize]
  simp only [Nat.reduceAdd, Nat.reducePow, Nat.reduceLT, if_true, Nat.reduceEqDiff, if_false]
  rcases fuel with _ | k
  · simp [walkFrom, Run.ofOption]
  · rw [walkFrom_succ]
    generalize hst1 : visitStep (linkVisitor va true 48)
      (setNode (fun p => if p = 24 then { value := va, left := 0, right := 0 } else zeroMem p)
        48 { value := vb, left := 0, right := 0 }, ()) 24 = st1
    have h24 : st1.1 24 = { value := va, left := 48, right := 0 } := by
      rw [← hst1, visitStep_link]
      simp [setNode, Node.setSide]
    have h48 : st1.1 48 = { value := vb, left := 0, right := 0 } := by
      rw [← hst1, visitStep_link]
      simp [setNode]
    have hmem : ∀ p, st1.1 p = (scenario2 va vb).mem p := by
      intro p
      rw [← hst1, visitStep_link]
      simp only [setNode, scenario2, Node.setSide]
      split_ifs <;> simp_all
    simp only [h24, ne_eq, Nat.reduceEqDiff, not_false_eq_true, if_true, not_true_eq_false,
      if_false]
    rcases k with _ | k
    · simp [walkFrom, Run.ofOption]
    · by_cases hb : vb = va
      · rw [walkFrom_link_self va true 48 (by decide) (k + 1) st1 (by rw [h48]; exact hb)]
        simp [hb, Run.ofOption]
      · rw [walkFrom_link_leaf va true 48 k 48 st1 (by rw [h48]; exact hb) (by rw [h48])
          (by rw [h48])]
        simp only [h24, if_true]
        simp [hb, Run.ofOption]
        refine App_ext ?_ ?_ ?_
        · rfl
        · exact hmem
        · rfl

theorem scenario_step3 (fuel : Nat) (va vb vc : Int) (hb : vb ≠ va) :
    (scenario2 va vb).addNode fuel vc (some va) false Remap.kept =
      if 2 ≤ fuel ∧ vc ≠ va then Run.ret (scenario3 va vb vc) else Run.noReturn := by
  simp only [App.addNode, App.appendNode, App.putNode, App.linkAsChild, App.walk, scenario2,
    nodeSize]
  simp only [Nat.reduceAdd, Nat.reducePow, Nat.reduceLT, if_true, Nat.reduceEqDiff, if_false]
  rcases fuel with _ | k
  · simp [walkFrom, Run.ofOption]
  · rw [walkFrom_succ]
    generalize hst1 : visitStep (linkVisitor va false 72)
      (setNode (fun p => if p = 24 then { value := va, left := 48, right := 0 }
          else if p = 48 then { value := vb, left := 0, right := 0 } else zeroMem p)
        72 { value := vc, left := 0, right := 0 }, ()) 24 = st1
    have h24 : st1.1 24 = { value := va, left := 48, right := 72 } := by
      rw [← hst1, visitStep_link]
      simp [setNode, Node.setSide]
    have h48 : st1.1 48 = { value := vb, left := 0, right := 0 } := by
      rw [← hst1, visitStep_link]
      simp [setNode]
    have h72 : st1.1 72 = { value := vc, left := 0, right := 0 } := by
      rw [← hst1, visitStep_link]
      simp [setNode]
    have hmem : ∀ p, st1.1 p = (scenario3 va vb vc).mem p := by
      intro p
      rw [← hst1, visitStep_link]
      simp only [setNode, scenario3, Node.setSide]
      split_ifs <;> simp_all
    simp only [h24, ne_eq, Nat.reduceEqDiff, not_false_eq_true, if_true]
    rcases k with _ | k
    · simp [walkFrom, Run.ofOption]
    · rw [walkFrom_link_leaf va false 72 k 48 st1 (by rw [h48]; exact hb) (by rw [h48])
        (by rw [h48])]
      simp only [h24, Nat.reduceEqDiff, not_false_eq_true, if_true]
      by_cases hc : vc = va
      · rw [walkFrom_link_self va false 72 (by decide) (k + 1) st1 (by rw [h72]; exact hc)]
        simp [hc, Run.ofOption]
      · rw [walkFrom_link_leaf va false 72 k 72 st1 (by rw [h72]; exact hc) (by rw [h72])
          (by rw [h72])]
        simp [hc, Run.ofOption]
        refine App_ext ?_ ?_ ?_
        · rfl
        · exact hmem
        · rfl

theorem threeNodes_eq (fuel : Nat) (va vb vc : Int) :
    threeNodes fuel va vb vc =
      if 2 ≤ fuel ∧ vb ≠ va ∧ vc ≠ va then Run.ret (scenario3 va vb vc) else Run.noReturn := by
  unfold threeNodes
  rw [scenario_step1]
  simp only
  rw [scenario_step2]
  by_cases h2 : 2 ≤ fuel ∧ vb ≠ va
  · rw [if_pos h2]
    simp only
    rw [scenario_step3 fuel va vb vc h2.2]
    by_cases h3 : vc ≠ va
    · rw [if_pos ⟨h2.1, h3⟩, if_pos ⟨h2.1, h2.2, h3⟩]
    · rw [if_neg (fun h => h3 h.2), if_neg (fun h => h3 h.2.2)]
  · rw [if_neg h2, if_neg (fun h => h2 ⟨h.1, h.2.1⟩)]

theorem scenario3_Shape (va vb vc : Int) : Shape (scenario3 va vb vc).mem 24 scenarioTree := by
  simp [scenarioTree, Shape, scenario3]

/-- Evidence for C7 (the scenario of the claim, on a new store, with the
mapping keeping its address).  When the second or the third node holds the
value of the root, the step that links it does not return, whatever the
recursion depth allowed: `linkAsRoot(r)`, `linkAsChild(valueAtR, n1, left)`
with 65 at both r and n1; and `linkAsRoot(r)`, `linkAsChild(valueAtR, n1,
left)`, `linkAsChild(valueAtR, n2, right)` with 65 at both r and n2.  No
visit order r, n1, n2 is ever produced.  The walk of the linking closure steps
into the node it has just linked, finds the parent value there as well, makes
the node its own child and follows that reference. -/
theorem scenario_with_equal_values_never_returns (fuel : Nat) :
    (scenario1 65).addNode fuel 65 (some 65) true Remap.kept = Run.noReturn ∧
    threeNodes fuel 65 65 67 = Run.noReturn ∧
    (scenario2 65 66).addNode fuel 65 (some 65) false Remap.kept = Run.noReturn ∧
    threeNodes fuel 65 66 65 = Run.noReturn := by
  refine ⟨?_, ?_, ?_, ?_⟩
  · rw [scenario_step2, if_neg (fun h => h.2 rfl)]
  · rw [threeNodes_eq, if_neg (fun h => h.2.1 rfl)]
  · rw [scenario_step3 fuel 65 66 65 (by decide), if_neg (fun h => h.2 rfl)]
  · rw [threeNodes_eq, if_neg (fun h => h.2.2 rfl)]

/-- The part of C7 that the code keeps.  On every store whose child
references reachable from the root form a finite binary tree `t` (the shape of
the store, no offset occurring twice), with a recursion depth of at least the
depth of the tree: `walk` hands its visitor the offsets of the pre-order of `t`
(the node, its whole left subtree, its whole right subtree); these are exactly
the reachable nodes, each once; and for any visitor that leaves the child
references alone the walk is the visitor run over that pre-order.  When the
root reference is 0 the visitor is never called.  Whenever the three steps
`linkAsRoot(r)`, `linkAsChild(valueAtR, n1, left)`,
`linkAsChild(valueAtR, n2, right)` on a new store return, the visit order is
r, n1, n2; and they do return when the values of n1 and n2 differ from the
value at r. -/
theorem walk_visits_preorder :
    (∀ (a : App) (h : Header) (t : Tree) (fuel : Nat),
      a.header = some h → Shape a.mem h.root t → t.preorder.Nodup → t.depth ≤ fuel →
        a.visited fuel = some t.preorder ∧
        (∀ q, q ∈ t.preorder ↔ Reach a.mem h.root q) ∧
        (∀ q, Reach a.mem h.root q → t.preorder.count q = 1) ∧
        (∀ (σ : Type) (f : Visitor σ) (s : σ), KeepsLinks f →
          a.walk fuel f s =
            some ({ a with mem := (t.preorder.foldl (visitStep f) (a.mem, s)).1 },
              (t.preorder.foldl (visitStep f) (a.mem, s)).2))) ∧
    (∀ (a : App) (h : Header) (fuel : Nat), a.header = some h → h.root = 0 →
        a.visited fuel = some [] ∧
        (∀ (σ : Type) (f : Visitor σ) (s : σ), a.walk fuel f s = some (a, s))) ∧
    (∀ (va vb vc : Int) (fuel : Nat) (a3 : App), threeNodes fuel va vb vc = Run.ret a3 →
        ∀ fuel2, 2 ≤ fuel2 →
          a3.visited fuel2 = some [headerSize, headerSize + nodeSize, headerSize + 2 * nodeSize]) ∧
    (∀ (va vb vc : Int) (fuel : Nat), vb ≠ va → vc ≠ va → 2 ≤ fuel →
        ∃ a3, threeNodes fuel va vb vc = Run.ret a3) := by
  refine ⟨?_, ?_, ?_, ?_⟩
  · intro a h t fuel hh hs hn hd
    have hiff := mem_preorder_iff_Reach t h.root hs
    refine ⟨(visited_Shape a h t fuel hh hs hd).2, hiff, ?_, ?_⟩
    · intro q hq
      exact List.count_eq_one_of_mem hn ((hiff q).2 hq)
    · intro σ f s hf
      exact walk_Shape hf a h t fuel s hh hs hd
  · intro a h fuel hh h0
    have hw : ∀ (σ : Type) (f : Visitor σ) (s : σ), a.walk fuel f s = some (a, s) := by
      intro σ f s
      unfold App.walk
      rw [hh]
      simp [h0]
    refine ⟨?_, hw⟩
    unfold App.visited
    rw [hw]
  · intro va vb vc fuel a3 h3 fuel2 hf2
    rw [threeNodes_eq] at h3
    split at h3
    · simp only [Run.ret.injEq] at h3
      subst h3
      exact (visited_Shape (scenario3 va vb vc)
        { magic := magic, version := version, length := 96, root := 24 } scenarioTree fuel2 rfl
        (scenario3_Shape va vb vc) (by simpa [scenarioTree, Tree.depth] using hf2)).2
    · simp at h3
  · intro va vb vc fuel hb hc hf
    exact ⟨scenario3 va vb vc, by rw [threeNodes_eq, if_pos ⟨hf, hb, hc⟩]⟩

/-- Instances of the theorem above: the store of the scenario with the values
65, 66, 67; a new store, whose root reference is 0; the scenario run by the
program. -/
theorem walk_visits_preorder_instances :
    (scenario3 65 66 67).visited 2 = some [24, 48, 72] ∧
    freshApp.visited 0 = some [] ∧
    (scenario3 65 66 67).visited 5 = some [24, 48, 72] ∧
    (∃ a3, threeNodes 2 65 66 67 = Run.ret a3) :=
  ⟨(walk_visits_preorder.1 (scenario3 65 66 67)
      { magic := magic, version := version, length := 96, root := 24 } scenarioTree 2 rfl
      (scenario3_Shape 65 66 67) (by decide) (by decide)).1,
    (walk_visits_preorder.2.1 freshApp
      { magic := magic, version := version, length := headerSize, root := 0 } 0 rfl rfl).1,
    walk_visits_preorder.2.2.1 65 66 67 2 (scenario3 65 66 67)
      (by rw [threeNodes_eq]; rfl) 5 (by decide),
    walk_visits_preorder.2.2.2 65 66 67 2 (by decide) (by decide) (by decide)⟩

/-! ### First match or every match -/

/-- Counterexample to C8 as stated.  In `dupStore` the pre-order is 24, 48 and
both nodes hold 65.  `updateNode(65, 67)` changes both values, not only the
first; `addNode` under the parent value 65, on the right, sets the right
reference of both nodes to the new offset 72. -/
theorem later_match_is_changed_too :
    (dupStore.bind fun a => a.visited 5) = some [24, 48] ∧
    (dupStore.bind fun a => a.collectNodeValues 5) = some [65, 65] ∧
    (dupStore.bind fun a => (a.updateNode 5 65 67).bind fun b => b.collectNodeValues 5)
      = some [67, 67] ∧
    (dupStore.bind fun a => (a.addNode 5 68 (some 65) false Remap.kept).toOption.map fun b =>
      ((b.mem 24).right, (b.mem 48).right)) = some (72, 72) := by
  decide

theorem update_keepsLinks (v w : Int) : KeepsLinks (updateVisitor v w) := by
  intro p n s
  unfold updateVisitor
  by_cases h : n.value = v <;> simp [h]

theorem foldl_update (v w : Int) (l : List Nat) :
    ∀ (mem : Mem) (p : Nat),
      (l.foldl (visitStep (updateVisitor v w)) (mem, ())).1 p =
        if p ∈ l ∧ (mem p).value = v then { mem p with value := w } else mem p := by
  induction l with
  | nil => intro mem p; simp
  | cons q l ih =>
    intro mem p
    simp only [List.foldl_cons]
    have hstep : visitStep (updateVisitor v w) (mem, ()) q =
        (setNode mem q (if (mem q).value = v then { mem q with value := w } else mem q), ()) := by
      unfold visitStep updateVisitor
      by_cases h : (mem q).value = v <;> simp [h]
    rw [hstep, ih]
    by_cases hpq : p = q
    · subst hpq
      by_cases hv : (mem p).value = v
      · by_cases hw : w = v <;> simp [setNode, hv, hw]
      · simp [setNode, hv]
    · simp [setNode, hpq]

/-! ### The linking walk on a tree -/

theorem linkAll_nil (v : Int) (isLeft : Bool) (o : Nat) (mem : Mem) :
    linkAll v isLeft o mem [] = mem := by
  funext p
  simp [linkAll]

theorem linkAll_value (v : Int) (isLeft : Bool) (o : Nat) (mem : Mem) (S : List Nat) (p : Nat) :
    (linkAll v isLeft o mem S p).value = (mem p).value := by
  unfold linkAll
  split
  · exact setSide_value _ _ _
  · rfl

theorem linkAll_nomatch (v : Int) (isLeft : Bool) (o : Nat) (mem : Mem) (S : List Nat) (p : Nat)
    (h : (mem p).value ≠ v) : linkAll v isLeft o mem S p = mem p := by
  unfold linkAll
  simp [h]

theorem linkAll_right (v : Int) (o : Nat) (mem : Mem) (S : List Nat) (p : Nat) :
    (linkAll v true o mem S p).right = (mem p).right := by
  unfold linkAll
  split <;> rfl

theorem linkAll_left (v : Int) (o : Nat) (mem : Mem) (S : List Nat) (p : Nat) :
    (linkAll v false o mem S p).left = (mem p).left := by
  unfold linkAll
  split <;> rfl

theorem linkAll_append (v : Int) (isLeft : Bool) (o : Nat) (mem : Mem) (S1 S2 : List Nat) :
    linkAll v isLeft o (linkAll v isLeft o mem S1) S2 = linkAll v isLeft o mem (S1 ++ S2) := by
  funext p
  have hv := linkAll_value v isLeft o mem S1 p
  by_cases hm : (mem p).value = v
  · by_cases h1 : p ∈ S1 <;> by_cases h2 : p ∈ S2 <;>
      simp [linkAll, hm, h1, h2, setSide_value, setSide_idem]
  · simp [linkAll, hm]

theorem visitStep_link_linkAll (v : Int) (isLeft : Bool) (o : Nat) (st : Mem × Unit) (p : Nat) :
    visitStep (linkVisitor v isLeft o) st p = (linkAll v isLeft o st.1 [p], ()) := by
  rw [visitStep_link]
  congr 1
  funext q
  by_cases hq : q = p
  · subst hq
    by_cases hv : (st.1 q).value = v <;> simp [setNode, linkAll, hv]
  · simp [setNode, linkAll, hq]

theorem PrunedShape_linkAll (v : Int) (isLeft : Bool) (o : Nat) (mem : Mem) (S : List Nat) :
    ∀ (t : Tree) (c : Nat), PrunedShape v isLeft mem c t →
      PrunedShape v isLeft (linkAll v isLeft o mem S) c t := by
  intro t
  induction t with
  | nil => intro c h; simpa [PrunedShape] using h
  | node p l r ihl ihr =>
    intro c h
    simp only [PrunedShape] at h ⊢
    obtain ⟨h0, hp, h1, h2, h3⟩ := h
    rw [linkAll_value]
    refine ⟨h0, hp, ?_, ?_, ?_⟩
    · intro hv hl
      subst hl
      rw [linkAll_right]
      exact ⟨(h1 hv rfl).1, ihr _ (h1 hv rfl).2⟩
    · intro hv hl
      subst hl
      rw [linkAll_left]
      exact ⟨(h2 hv rfl).1, ihl _ (h2 hv rfl).2⟩
    · intro hv
      rw [linkAll_nomatch v isLeft o mem S p hv]
      exact ⟨ihl _ (h3 hv).1, ihr _ (h3 hv).2⟩

theorem walk_new_leaf (v : Int) (isLeft : Bool) (o k : Nat) (st : Mem × Unit)
    (hv : (st.1 o).value ≠ v) (hl : (st.1 o).left = 0) (hr : (st.1 o).right = 0) :
    (if o ≠ 0 then walkFrom (linkVisitor v isLeft o) (k + 1) o st else some st) = some st := by
  split
  · exact walkFrom_link_leaf v isLeft o k o st hv hl hr
  · rfl

/-- The linking walk over a store of pruned shape `t`, the node at `o` being
a leaf that does not hold `v`: it returns, and has run the closure on the
pre-order of `t`. -/
theorem walkFrom_link_PrunedShape (v : Int) (isLeft : Bool) (o : Nat) :
    ∀ (t : Tree) (fuel c : Nat) (st : Mem × Unit),
      PrunedShape v isLeft st.1 c t →
      (st.1 o).value ≠ v → (st.1 o).left = 0 → (st.1 o).right = 0 →
      t.depth + 1 ≤ fuel →
      (if c ≠ 0 then walkFrom (linkVisitor v isLeft o) fuel c st else some st)
        = some (linkAll v isLeft o st.1 t.preorder, ()) := by
  intro t
  induction t with
  | nil =>
    intro fuel c st h _ _ _ _
    simp only [PrunedShape] at h
    simp [h, Tree.preorder, linkAll_nil]
  | node p l r ihl ihr =>
    intro fuel c st h hov hol hor hd
    have hps := h
    simp only [PrunedShape] at h
    obtain ⟨h0, hp, h1, h2, h3⟩ := h
    subst hp
    simp only [Tree.depth] at hd
    obtain ⟨k, rfl⟩ : ∃ k, fuel = k + 1 := ⟨fuel - 1, by omega⟩
    obtain ⟨k, rfl⟩ : ∃ j, k = j + 1 := ⟨k - 1, by omega⟩
    have hdl : l.depth + 1 ≤ k + 1 := by omega
    have hdr : r.depth + 1 ≤ k + 1 := by omega
    simp only [h0, ne_eq, not_false_eq_true, if_true]
    rw [walkFrom_succ, visitStep_link_linkAll]
    -- the store after the closure has run on `c`
    have hps1 := PrunedShape_linkAll v isLeft o st.1 [c] _ c hps
    simp only [PrunedShape] at hps1
    obtain ⟨_, _, g1, g2, g3⟩ := hps1
    have hval1 : ∀ q, (linkAll v isLeft o st.1 [c] q).value = (st.1 q).value :=
      fun q => linkAll_value v isLeft o st.1 [c] q
    have ho1 : linkAll v isLeft o st.1 [c] o = st.1 o := linkAll_nomatch v isLeft o st.1 [c] o hov
    by_cases hv : (st.1 c).value = v
    · have hc1 : linkAll v isLeft o st.1 [c] c = (st.1 c).setSide isLeft o := by
        simp [linkAll, hv]
      cases isLeft with
      | true =>
        obtain ⟨hlnil, hsr⟩ := g1 (by rw [hval1]; exact hv) rfl
        subst hlnil
        have hleft : (linkAll v true o st.1 [c] c).left = o := by rw [hc1]; rfl
        simp only [hleft]
        rw [walk_new_leaf v true o k (linkAll v true o st.1 [c], ()) (by simp only; rw [ho1]; exact hov)
          (by simp only; rw [ho1]; exact hol) (by simp only; rw [ho1]; exact hor)]
        simp only
        rw [ihr (k + 1) _ (linkAll v true o st.1 [c], ()) hsr (by simp only; rw [ho1]; exact hov)
          (by simp only; rw [ho1]; exact hol) (by simp only; rw [ho1]; exact hor) hdr]
        simp only [linkAll_append, Tree.preorder, List.nil_append, List.singleton_append]
      | false =>
        obtain ⟨hrnil, hsl⟩ := g2 (by rw [hval1]; exact hv) rfl
        subst hrnil
        rw [ihl (k + 1) _ (linkAll v false o st.1 [c], ()) hsl (by simp only; rw [ho1]; exact hov)
          (by simp only; rw [ho1]; exact hol) (by simp only; rw [ho1]; exact hor) hdl]
        simp only [linkAll_append]
        have hright : (linkAll v false o st.1 ([c] ++ l.preorder) c).right = o := by
          simp [linkAll, hv, Node.setSide]
        have ho2 : linkAll v false o st.1 ([c] ++ l.preorder) o = st.1 o :=
          linkAll_nomatch v false o st.1 _ o hov
        simp only [hright]
        rw [walk_new_leaf v false o k (linkAll v false o st.1 ([c] ++ l.preorder), ())
          (by simp only; rw [ho2]; exact hov) (by simp only; rw [ho2]; exact hol)
          (by simp only; rw [ho2]; exact hor)]
        simp [Tree.preorder]
    · obtain ⟨hsl, hsr⟩ := g3 (by rw [hval1]; exact hv)
      rw [ihl (k + 1) _ (linkAll v isLeft o st.1 [c], ()) hsl (by simp only; rw [ho1]; exact hov)
        (by simp only; rw [ho1]; exact hol) (by simp only; rw [ho1]; exact hor) hdl]
      simp only [linkAll_append]
      have hps2 := PrunedShape_linkAll v isLeft o st.1 ([c] ++ l.preorder) _ c hps
      simp only [PrunedShape] at hps2
      obtain ⟨_, _, _, _, f3⟩ := hps2
      have ho2 : linkAll v isLeft o st.1 ([c] ++ l.preorder) o = st.1 o :=
        linkAll_nomatch v isLeft o st.1 _ o hov
      rw [ihr (k + 1) _ (linkAll v isLeft o st.1 ([c] ++ l.preorder), ())
        (f3 (by rw [linkAll_value]; exact hv)).2 (by simp only; rw [ho2]; exact hov)
        (by simp only; rw [ho2]; exact hol) (by simp only; rw [ho2]; exact hor) hdr]
      simp only [linkAll_append, Tree.preorder, List.singleton_append, List.cons_append,
        List.nil_append]

theorem Shape_prune (v : Int) (isLeft : Bool) (mem : Mem) :
    ∀ (t : Tree) (c : Nat), Shape mem c t →
      PrunedShape v isLeft mem c (t.prune mem v isLeft) := by
  intro t
  induction t with
  | nil => intro c h; simpa [Shape, Tree.prune, PrunedShape] using h
  | node p l r ihl ihr =>
    intro c h
    simp only [Shape] at h
    obtain ⟨h0, hp, h1, h2⟩ := h
    by_cases hv : (mem p).value = v
    · cases isLeft with
      | true =>
        have hpr : (Tree.node p l r).prune mem v true
            = Tree.node p Tree.nil (r.prune mem v true) := by simp [Tree.prune, hv]
        rw [hpr]
        simp only [PrunedShape]
        exact ⟨h0, hp, fun _ _ => ⟨trivial, ihr _ h2⟩, fun _ hf => by simp at hf,
          fun hn => absurd hv hn⟩
      | false =>
        have hpr : (Tree.node p l r).prune mem v false
            = Tree.node p (l.prune mem v false) Tree.nil := by simp [Tree.prune, hv]
        rw [hpr]
        simp only [PrunedShape]
        exact ⟨h0, hp, fun _ hf => by simp at hf, fun _ _ => ⟨trivial, ihl _ h1⟩,
          fun hn => absurd hv hn⟩
    · have hpr : (Tree.node p l r).prune mem v isLeft
          = Tree.node p (l.prune mem v isLeft) (r.prune mem v isLeft) := by
        simp [Tree.prune, hv]
      rw [hpr]
      simp only [PrunedShape]
      exact ⟨h0, hp, fun hn => absurd hn hv, fun hn => absurd hn hv,
        fun _ => ⟨ihl _ h1, ihr _ h2⟩⟩

theorem prune_depth (v : Int) (isLeft : Bool) (mem : Mem) :
    ∀ (t : Tree), (t.prune mem v isLeft).depth ≤ t.depth := by
  intro t
  induction t with
  | nil => simp [Tree.prune]
  | node p l r ihl ihr =>
    simp only [Tree.prune]
    by_cases hv : (mem p).value = v
    · cases isLeft <;> simp only [hv, if_true, Tree.depth] <;> simp <;> omega
    · simp only [hv, if_false, Tree.depth]
      omega

theorem prune_subset (v : Int) (isLeft : Bool) (mem : Mem) :
    ∀ (t : Tree) (q : Nat), q ∈ (t.prune mem v isLeft).preorder → q ∈ t.preorder := by
  intro t
  induction t with
  | nil => intro q h; simpa [Tree.prune] using h
  | node p l r ihl ihr =>
    intro q h
    simp only [Tree.prune] at h
    simp only [Tree.preorder, List.mem_cons, List.mem_append]
    by_cases hv : (mem p).value = v
    · cases isLeft with
      | true =>
        simp only [hv, if_true, Tree.preorder, List.mem_cons, List.nil_append] at h
        rcases h with h | h
        · exact Or.inl h
        · exact Or.inr (Or.inr (ihr q h))
      | false =>
        simp only [hv, if_true, Tree.preorder, List.mem_cons, List.append_nil, Bool.false_eq_true,
          if_false] at h
        rcases h with h | h
        · exact Or.inl h
        · exact Or.inr (Or.inl (ihl q h))
    · simp only [hv, if_false, Tree.preorder, List.mem_cons, List.mem_append] at h
      rcases h with h | h | h
      · exact Or.inl h
      · exact Or.inr (Or.inl (ihl q h))
      · exact Or.inr (Or.inr (ihr q h))

/-- Pruning removes nothing that comes before the first node holding `v`, nor
that node itself. -/
theorem prune_find (v : Int) (isLeft : Bool) (mem : Mem) :
    ∀ (t : Tree),
      (t.prune mem v isLeft).preorder.find? (fun p => decide ((mem p).value = v))
        = t.preorder.find? (fun p => decide ((mem p).value = v)) := by
  intro t
  induction t with
  | nil => simp [Tree.prune]
  | node p l r ihl ihr =>
    simp only [Tree.prune]
    by_cases hv : (mem p).value = v
    · cases isLeft <;> simp [hv, Tree.preorder, List.find?_cons]
    · simp only [hv, if_false, Tree.preorder, List.find?_cons, decide_False, List.find?_append,
        ihl, ihr]

theorem prune_eq_self (v : Int) (isLeft : Bool) (mem : Mem) :
    ∀ (t : Tree) (c : Nat), Shape mem c t →
      (∀ p ∈ t.preorder, (mem p).value = v → (mem p).side isLeft = 0) →
      t.prune mem v isLeft = t := by
  intro t
  induction t with
  | nil => intro c _ _; rfl
  | node p l r ihl ihr =>
    intro c h he
    simp only [Shape] at h
    obtain ⟨h0, hp, h1, h2⟩ := h
    have hel : ∀ q ∈ l.preorder, (mem q).value = v → (mem q).side isLeft = 0 :=
      fun q hq => he q (by simp [Tree.preorder, hq])
    have her : ∀ q ∈ r.preorder, (mem q).value = v → (mem q).side isLeft = 0 :=
      fun q hq => he q (by simp [Tree.preorder, hq])
    simp only [Tree.prune]
    rw [ihl _ h1 hel, ihr _ h2 her]
    by_cases hv : (mem p).value = v
    · have hs := he p (by simp [Tree.preorder]) hv
      cases isLeft with
      | true =>
        simp only [Node.side, if_true] at hs
        rw [hs] at h1
        simp [hv, Shape_zero h1]
      | false =>
        simp only [Node.side, Bool.false_eq_true, if_false] at hs
        rw [hs] at h2
        simp [hv, Shape_zero h2]
    · simp [hv]

/-- The walk of `addNode` on a store of shape `t`, the node at `o` being a leaf
that does not hold `v`: it returns, and the closure has run on the pre-order
of the pruned tree. -/
theorem linkAsChild_Shape (a : App) (h : Header) (t : Tree) (fuel : Nat) (v : Int) (o : Nat)
    (isLeft : Bool) (hh : a.header = some h) (hs : Shape a.mem h.root t)
    (hov : (a.mem o).value ≠ v) (hol : (a.mem o).left = 0) (hor : (a.mem o).right = 0)
    (hd : t.depth + 1 ≤ fuel) :
    a.linkAsChild fuel v o isLeft =
      some { a with mem := linkAll v isLeft o a.mem (t.prune a.mem v isLeft).preorder } := by
  have hps := Shape_prune v isLeft a.mem t h.root hs
  have hdp := prune_depth v isLeft a.mem t
  have hw := walkFrom_link_PrunedShape v isLeft o (t.prune a.mem v isLeft) fuel h.root
    (a.mem, ()) hps hov hol hor (by omega)
  unfold App.linkAsChild App.walk
  rw [hh]
  simp only
  by_cases h0 : h.root = 0
  · rw [h0] at hs
    have ht := Shape_zero hs
    subst ht
    simp only [h0, if_true, Tree.prune, Tree.preorder, linkAll_nil, Option.some.injEq]
    exact App_ext (by rw [hh]) (fun _ => rfl) rfl
  · simp only [h0, ne_eq, not_false_eq_true, if_true, if_false] at hw ⊢
    rw [hw]

/-- Claim C8, amended.  Every match the traversal reaches is changed, not only
the first.  `updateValue(v, w)`, on every tree and with a recursion depth of at
least the depth of the tree, returns, sets to `w` the value of every reachable
node whose value equals `v`, and leaves every other node unchanged.
`linkAsChild(v, offset, side)`, on every tree, when the node at `offset` is a
leaf whose value differs from `v` and the recursion depth allowed exceeds the
depth of the tree, returns and sets the chosen child reference of every node
holding `v` in the pre-order of the pruned tree (the tree with the subtree on
the chosen side cut off below each node holding `v`), and leaves every other
node unchanged; the first node in pre-order holding `v` is always among the
nodes changed, and when the chosen child slots of the nodes holding `v` are
empty nothing is cut off, so every reachable node holding `v` is changed. -/
theorem every_reached_match_is_changed :
    (∀ (a : App) (h : Header) (t : Tree) (fuel : Nat) (v w : Int),
      a.header = some h → Shape a.mem h.root t → t.depth ≤ fuel →
        ∃ a2, a.updateNode fuel v w = some a2 ∧ a2.header = a.header ∧
          ∀ p, a2.mem p =
            if p ∈ t.preorder ∧ (a.mem p).value = v then { a.mem p with value := w }
            else a.mem p) ∧
    (∀ (a : App) (h : Header) (t : Tree) (fuel : Nat) (v : Int) (o : Nat) (isLeft : Bool),
      a.header = some h → Shape a.mem h.root t →
      (a.mem o).value ≠ v → (a.mem o).left = 0 → (a.mem o).right = 0 → t.depth + 1 ≤ fuel →
        ∃ a2, a.linkAsChild fuel v o isLeft = some a2 ∧ a2.header = a.header ∧
          (∀ p, a2.mem p =
            if p ∈ (t.prune a.mem v isLeft).preorder ∧ (a.mem p).value = v
            then (a.mem p).setSide isLeft o else a.mem p) ∧
          (∀ p, (a.mem p).value ≠ v → a2.mem p = a.mem p) ∧
          (∀ p, t.preorder.find? (fun q => decide ((a.mem q).value = v)) = some p →
            a2.mem p = (a.mem p).setSide isLeft o) ∧
          ((∀ p ∈ t.preorder, (a.mem p).value = v → (a.mem p).side isLeft = 0) →
            ∀ p ∈ t.preorder, (a.mem p).value = v → a2.mem p = (a.mem p).setSide isLeft o)) := by
  refine ⟨?_, ?_⟩
  · intro a h t fuel v w hh hs hd
    have hw := walk_Shape (update_keepsLinks v w) a h t fuel () hh hs hd
    refine ⟨{ a with mem := (t.preorder.foldl (visitStep (updateVisitor v w)) (a.mem, ())).1 },
      by unfold App.updateNode; rw [hw], rfl, ?_⟩
    intro p
    exact foldl_update v w t.preorder a.mem p
  · intro a h t fuel v o isLeft hh hs hov hol hor hd
    have hl := linkAsChild_Shape a h t fuel v o isLeft hh hs hov hol hor hd
    refine ⟨{ a with mem := linkAll v isLeft o a.mem (t.prune a.mem v isLeft).preorder },
      hl, rfl, fun p => rfl, ?_, ?_, ?_⟩
    · intro p hp
      exact linkAll_nomatch v isLeft o a.mem _ p hp
    · intro p hp
      rw [← prune_find v isLeft a.mem t] at hp
      have hmem := List.mem_of_find?_eq_some hp
      have hval := List.find?_some hp
      simp only [decide_eq_true_eq] at hval
      simp [linkAll, hmem, hval]
    · intro he p hp hv
      have hpe := prune_eq_self v isLeft a.mem t h.root hs he
      simp only [hpe]
      simp [linkAll, hp, hv]

/-- Instances of the amended C8, on the store of the scenario with the values
65, 66, 65: `updateNode(65, 67)` changes the nodes at 24 and 72 and not the
node at 48; linking offset 96 on the left under the value 65 sets the left
reference of the node at 24, cutting off the node at 48, and of the node at
72. -/
theorem every_reached_match_is_changed_witness :
    (∃ a2, (scenario3 65 66 65).updateNode 2 65 67 = some a2 ∧
      (a2.mem 24).value = 67 ∧ (a2.mem 48).value = 66 ∧ (a2.mem 72).value = 67) ∧
    (∃ a2, (scenario3 65 66 65).linkAsChild 3 65 96 true = some a2 ∧
      (a2.mem 24).left = 96 ∧ (a2.mem 48).left = 0 ∧ (a2.mem 72).left = 96) := by
  constructor
  · obtain ⟨a2, h1, _, h3⟩ := every_reached_match_is_changed.1 (scenario3 65 66 65)
      { magic := magic, version := version, length := 96, root := 24 } scenarioTree 2 65 67 rfl
      (scenario3_Shape 65 66 65) (by decide)
    refine ⟨a2, h1, ?_, ?_, ?_⟩
    · rw [h3]; decide
    · rw [h3]; decide
    · rw [h3]; decide
  · obtain ⟨a2, h1, _, h3, _⟩ := every_reached_match_is_changed.2 (scenario3 65 66 65)
      { magic := magic, version := version, length := 96, root := 24 } scenarioTree 3 65 96 true
      rfl (scenario3_Shape 65 66 65) (by decide) rfl rfl (by decide)
    refine ⟨a2, h1, ?_, ?_, ?_⟩
    · rw [h3]; decide
    · rw [h3]; decide
    · rw [h3]; decide

/-! ### Recursion depth -/

theorem walkFrom_mono {σ : Type} (f : Visitor σ) :
    ∀ (fuel c : Nat) (st r : Mem × σ),
      walkFrom f fuel c st = some r → walkFrom f (fuel + 1) c st = some r := by
  intro fuel
  induction fuel with
  | zero => intro c st r h; simp [walkFrom] at h
  | succ k ih =>
    intro c st r h
    rw [walkFrom_succ] at h ⊢
    generalize visitStep f st c = st1 at h ⊢
    split at h
    · simp at h
    · rename_i st2 hl
      have hl2 : (if (st1.1 c).left ≠ 0 then walkFrom f (k + 1) (st1.1 c).left st1
          else some st1) = some st2 := by
        split at hl
        · rename_i hc
          rw [if_pos hc]
          exact ih _ _ _ hl
        · rename_i hc
          rw [if_neg hc]
          exact hl
      rw [hl2]
      simp only
      split at h
      · rename_i hc
        rw [if_pos hc]
        exact ih _ _ _ h
      · rename_i hc
        rw [if_neg hc]
        exact h

theorem walkFrom_mono_le {σ : Type} (f : Visitor σ) (fuel fuel2 c : Nat) (st r : Mem × σ)
    (hle : fuel ≤ fuel2) (h : walkFrom f fuel c st = some r) :
    walkFrom f fuel2 c st = some r := by
  obtain ⟨d, rfl⟩ : ∃ d, fuel2 = fuel + d := ⟨fuel2 - fuel, by omega⟩
  clear hle
  induction d with
  | zero => exact h
  | succ d ih => exact walkFrom_mono f _ _ _ _ ih

theorem linkAsChild_mono_le (a a2 : App) (fuel fuel2 : Nat) (v : Int) (o : Nat) (isLeft : Bool)
    (hle : fuel ≤ fuel2) (h : a.linkAsChild fuel v o isLeft = some a2) :
    a.linkAsChild fuel2 v o isLeft = some a2 := by
  unfold App.linkAsChild App.walk at h ⊢
  cases hh : a.header with
  | none => rw [hh] at h; exact h
  | some hd =>
    rw [hh] at h
    simp only at h ⊢
    by_cases h0 : hd.root = 0
    · simp only [h0, if_true] at h ⊢
      exact h
    · simp only [h0, if_false] at h ⊢
      cases hw : walkFrom (linkVisitor v isLeft o) fuel hd.root (a.mem, ()) with
      | none => rw [hw] at h; simp at h
      | some r =>
        rw [hw] at h
        rw [walkFrom_mono_le _ fuel fuel2 _ _ r hle hw]
        exact h

/-! ### Appending and grafting -/

theorem Shape_setNode (mem : Mem) (o : Nat) (n : Node) :
    ∀ (t : Tree) (c : Nat), o ∉ t.preorder → Shape mem c t → Shape (setNode mem o n) c t := by
  intro t
  induction t with
  | nil => intro c _ h; simpa [Shape] using h
  | node p l r ihl ihr =>
    intro c hn h
    simp only [Tree.preorder, List.mem_cons, List.mem_append, not_or] at hn
    obtain ⟨hop, hol, hor⟩ := hn
    simp only [Shape] at h ⊢
    obtain ⟨h0, hp, h1, h2⟩ := h
    have hpo : p ≠ o := fun e => hop e.symm
    rw [setNode_other mem o p n hpo]
    exact ⟨h0, hp, ihl _ hol h1, ihr _ hor h2⟩

theorem Shape_graft (v : Int) (isLeft : Bool) (o : Nat) (mem : Mem) (S : List Nat)
    (ho : o ≠ 0) (hov : (mem o).value ≠ v) (hol : (mem o).left = 0) (hor : (mem o).right = 0) :
    ∀ (t : Tree) (c : Nat), Shape mem c t → (∀ q ∈ t.preorder, q ∈ S) →
      (∀ q ∈ t.preorder, (mem q).value = v → (mem q).side isLeft = 0) →
      Shape (linkAll v isLeft o mem S) c (t.graft mem v isLeft o) := by
  have hleaf : Shape (linkAll v isLeft o mem S) o (Tree.node o Tree.nil Tree.nil) := by
    simp only [Shape]
    rw [linkAll_nomatch v isLeft o mem S o hov]
    exact ⟨ho, trivial, hol, hor⟩
  intro t
  induction t with
  | nil => intro c h _ _; simpa [Shape, Tree.graft] using h
  | node p l r ihl ihr =>
    intro c h hS he
    simp only [Shape] at h
    obtain ⟨h0, hp, h1, h2⟩ := h
    have hSl : ∀ q ∈ l.preorder, q ∈ S := fun q hq => hS q (by simp [Tree.preorder, hq])
    have hSr : ∀ q ∈ r.preorder, q ∈ S := fun q hq => hS q (by simp [Tree.preorder, hq])
    have hel : ∀ q ∈ l.preorder, (mem q).value = v → (mem q).side isLeft = 0 :=
      fun q hq => he q (by simp [Tree.preorder, hq])
    have her : ∀ q ∈ r.preorder, (mem q).value = v → (mem q).side isLeft = 0 :=
      fun q hq => he q (by simp [Tree.preorder, hq])
    have hpS : p ∈ S := hS p (by simp [Tree.preorder])
    by_cases hv : (mem p).value = v
    · have hc : linkAll v isLeft o mem S p = (mem p).setSide isLeft o := by
        simp [linkAll, hpS, hv]
      cases isLeft with
      | true =>
        have hg : (Tree.node p l r).graft mem v true o
            = Tree.node p (Tree.node o Tree.nil Tree.nil) (r.graft mem v true o) := by
          simp [Tree.graft, hv]
        rw [hg]
        rw [Shape]
        refine ⟨h0, hp, ?_, ?_⟩
        · rw [hc]; exact hleaf
        · rw [hc]; exact ihr _ h2 hSr her
      | false =>
        have hg : (Tree.node p l r).graft mem v false o
            = Tree.node p (l.graft mem v false o) (Tree.node o Tree.nil Tree.nil) := by
          simp [Tree.graft, hv]
        rw [hg]
        rw [Shape]
        refine ⟨h0, hp, ?_, ?_⟩
        · rw [hc]; exact ihl _ h1 hSl hel
        · rw [hc]; exact hleaf
    · have hc : linkAll v isLeft o mem S p = mem p := linkAll_nomatch v isLeft o mem S p hv
      have hg : (Tree.node p l r).graft mem v isLeft o
          = Tree.node p (l.graft mem v isLeft o) (r.graft mem v isLeft o) := by
        simp [Tree.graft, hv]
      rw [hg]
      rw [Shape]
      refine ⟨h0, hp, ?_, ?_⟩
      · rw [hc]; exact ihl _ h1 hSl hel
      · rw [hc]; exact ihr _ h2 hSr her

theorem graft_mem (v : Int) (isLeft : Bool) (o : Nat) (mem : Mem) :
    ∀ (t : Tree) (c : Nat), Shape mem c t →
      (∀ q ∈ t.preorder, (mem q).value = v → (mem q).side isLeft = 0) →
      ∀ q, q ∈ (t.graft mem v isLeft o).preorder ↔
        (q ∈ t.preorder ∨ (q = o ∧ ∃ p ∈ t.preorder, (mem p).value = v)) := by
  intro t
  induction t with
  | nil => intro c _ _ q; simp [Tree.graft, Tree.preorder]
  | node p l r ihl ihr =>
    intro c h he q
    simp only [Shape] at h
    obtain ⟨h0, hp, h1, h2⟩ := h
    have hel : ∀ q ∈ l.preorder, (mem q).value = v → (mem q).side isLeft = 0 :=
      fun q hq => he q (by simp [Tree.preorder, hq])
    have her : ∀ q ∈ r.preorder, (mem q).value = v → (mem q).side isLeft = 0 :=
      fun q hq => he q (by simp [Tree.preorder, hq])
    have il := ihl _ h1 hel q
    have ir := ihr _ h2 her q
    by_cases hv : (mem p).value = v
    · have hE : ∃ p2 ∈ (Tree.node p l r).preorder, (mem p2).value = v :=
        ⟨p, by simp [Tree.preorder], hv⟩
      have hs := he p (by simp [Tree.preorder]) hv
      cases isLeft with
      | true =>
        have hg : (Tree.node p l r).graft mem v true o
            = Tree.node p (Tree.node o Tree.nil Tree.nil) (r.graft mem v true o) := by
          simp [Tree.graft, hv]
        simp only [Node.side, if_true] at hs
        rw [hs] at h1
        have hl := Shape_zero h1
        subst hl
        rw [hg]
        have hE2 : (∃ p2 ∈ (Tree.node p Tree.nil r).preorder, (mem p2).value = v) ↔ True :=
          iff_true_intro hE
        rw [hE2]
        simp only [Tree.preorder, List.mem_cons, List.mem_append, List.append_nil,
          List.not_mem_nil, or_false, List.nil_append, and_true, List.cons_append,
          List.singleton_append] at ir ⊢
        rw [ir]
        tauto
      | false =>
        have hg : (Tree.node p l r).graft mem v false o
            = Tree.node p (l.graft mem v false o) (Tree.node o Tree.nil Tree.nil) := by
          simp [Tree.graft, hv]
        simp only [Node.side, Bool.false_eq_true, if_false] at hs
        rw [hs] at h2
        have hr := Shape_zero h2
        subst hr
        rw [hg]
        have hE2 : (∃ p2 ∈ (Tree.node p l Tree.nil).preorder, (mem p2).value = v) ↔ True :=
          iff_true_intro hE
        rw [hE2]
        simp only [Tree.preorder, List.mem_cons, List.mem_append, List.append_nil,
          List.not_mem_nil, or_false, List.nil_append, and_true, List.mem_singleton] at il ⊢
        rw [il]
        tauto
    · have hg : (Tree.node p l r).graft mem v isLeft o
          = Tree.node p (l.graft mem v isLeft o) (r.graft mem v isLeft o) := by
        simp [Tree.graft, hv]
      rw [hg]
      have hE2 : (∃ p2 ∈ (Tree.node p l r).preorder, (mem p2).value = v) ↔
          ((∃ p2 ∈ l.preorder, (mem p2).value = v) ∨ (∃ p2 ∈ r.preorder, (mem p2).value = v)) := by
        constructor
        · rintro ⟨p2, hp2, hv2⟩
          simp only [Tree.preorder, List.mem_cons, List.mem_append] at hp2
          rcases hp2 with rfl | hp2 | hp2
          · exact absurd hv2 hv
          · exact Or.inl ⟨p2, hp2, hv2⟩
          · exact Or.inr ⟨p2, hp2, hv2⟩
        · rintro (⟨p2, hp2, hv2⟩ | ⟨p2, hp2, hv2⟩)
          · exact ⟨p2, by simp [Tree.preorder, hp2], hv2⟩
          · exact ⟨p2, by simp [Tree.preorder, hp2], hv2⟩
      rw [hE2]
      simp only [Tree.preorder, List.mem_cons, List.mem_append]
      rw [il, ir]
      constructor
      · rintro (h | (h | ⟨h, e⟩) | (h | ⟨h, e⟩))
        · exact Or.inl (Or.inl h)
        · exact Or.inl (Or.inr (Or.inl h))
        · exact Or.inr ⟨h, Or.inl e⟩
        · exact Or.inl (Or.inr (Or.inr h))
        · exact Or.inr ⟨h, Or.inr e⟩
      · rintro ((h | h | h) | ⟨h, e | e⟩)
        · exact Or.inl h
        · exact Or.inr (Or.inl (Or.inl h))
        · exact Or.inr (Or.inr (Or.inl h))
        · exact Or.inr (Or.inl (Or.inr ⟨h, e⟩))
        · exact Or.inr (Or.inr (Or.inr ⟨h, e⟩))

theorem graft_depth (v : Int) (isLeft : Bool) (o : Nat) (mem : Mem) :
    ∀ (t : Tree), (t.graft mem v isLeft o).depth ≤ t.depth + 1 := by
  intro t
  induction t with
  | nil => simp [Tree.graft, Tree.depth]
  | node p l r ihl ihr =>
    by_cases hv : (mem p).value = v
    · cases isLeft <;> simp [Tree.graft, hv, Tree.depth] <;> omega
    · simp only [Tree.graft, hv, if_false, Tree.depth]
      omega

/-! ### Slots -/

theorem IsSlot_succ (n q : Nat) :
    IsSlot (headerSize + nodeSize * (n + 1)) q ↔
      (IsSlot (headerSize + nodeSize * n) q ∨ q = headerSize + nodeSize * n) := by
  unfold IsSlot headerSize nodeSize
  omega

theorem IsSlot_index (n j : Nat) (hj : j < n) :
    IsSlot (headerSize + nodeSize * n) (headerSize + nodeSize * j) := by
  unfold IsSlot headerSize nodeSize
  omega

theorem not_IsSlot_length (n : Nat) :
    ¬ IsSlot (headerSize + nodeSize * n) (headerSize + nodeSize * n) := by
  unfold IsSlot headerSize nodeSize
  omega

/-! ### What `addNode` does to a store whose slots are all in the tree -/

theorem appendNode_eq (a : App) (h : Header) (b : Int) (hh : a.header = some h) :
    a.appendNode b Remap.kept =
      if h.length + nodeSize < 2 ^ 63 then
        Run.ret (h.length,
          { header := some { h with length := h.length + nodeSize },
            mem := setNode a.mem h.length { value := b, left := 0, right := 0 },
            mapped := h.length + nodeSize })
      else Run.noReturn := by
  unfold App.appendNode App.putNode
  rw [hh]
  dsimp only
  by_cases hg : h.length + nodeSize < 2 ^ 63
  · rw [if_pos hg, if_pos hg]
  · rw [if_neg hg, if_neg hg]

/-- When the mapping has moved, the allocation step leaves the model: no
store is attributed to the run. -/
theorem appendNode_moved (a : App) (h : Header) (b : Int) (hh : a.header = some h)
    (hg : h.length + nodeSize < 2 ^ 63) (fuel : Nat) (parent : Option Int) (isLeft : Bool) :
    a.appendNode b Remap.moved = Run.adrift ∧
      a.addNode fuel b parent isLeft Remap.moved = Run.adrift := by
  have h1 : a.appendNode b Remap.moved = Run.adrift := by
    unfold App.appendNode App.putNode
    rw [hh]
    dsimp only
    rw [if_pos hg]
  refine ⟨h1, ?_⟩
  unfold App.addNode
  rw [h1]

theorem SlotsInTree_append (a : App) (h : Header) (t : Tree) (n : Nat) (b : Int)
    (hinv : SlotsInTree a h t n) :
    Shape (setNode a.mem h.length { value := b, left := 0, right := 0 }) h.root t ∧
      h.length ∉ t.preorder ∧ h.length ≠ 0 := by
  obtain ⟨_, hs, hsl, hlen, _, _⟩ := hinv
  have hno : h.length ∉ t.preorder := by
    intro hm
    have := (hsl h.length).1 hm
    rw [hlen] at this
    exact not_IsSlot_length n this
  refine ⟨Shape_setNode _ _ _ t _ hno hs, hno, ?_⟩
  rw [hlen]
  unfold headerSize
  omega

theorem addRoot_SlotsInTree (a a2 : App) (h : Header) (t : Tree) (n fuel : Nat) (b : Int)
    (isLeft : Bool) (hinv : SlotsInTree a h t n) (h0 : h.root = 0)
    (hadd : a.addNode fuel b none isLeft Remap.kept = Run.ret a2) :
    ∃ h2 t2 n2, SlotsInTree a2 h2 t2 n2 := by
  obtain ⟨hh, hs, hsl, hlen, hd, hmap⟩ := hinv
  rw [h0] at hs
  have ht := Shape_zero hs
  subst ht
  have hn : n = 0 := by
    by_contra hne
    have := (hsl (headerSize + nodeSize * 0)).2 (by rw [hlen]; exact IsSlot_index n 0 (by omega))
    simp [Tree.preorder] at this
  subst hn
  unfold App.addNode at hadd
  rw [appendNode_eq a h b hh] at hadd
  by_cases hg : h.length + nodeSize < 2 ^ 63
  · rw [if_pos hg] at hadd
    simp only [App.linkAsRoot, Run.ofOption, Run.ret.injEq] at hadd
    subst hadd
    refine ⟨{ h with length := h.length + nodeSize, root := h.length },
      Tree.node h.length Tree.nil Tree.nil, 1, rfl, ?_, ?_, ?_, ?_, rfl⟩
    · simp only [Shape, setNode_same]
      refine ⟨?_, trivial, trivial, trivial⟩
      rw [hlen]; unfold headerSize; omega
    · intro p
      simp only [Tree.preorder, List.append_nil, List.mem_singleton, hlen]
      have := IsSlot_succ 0 p
      simp only [Nat.zero_add] at this
      have e1 : headerSize + nodeSize * 0 + nodeSize = headerSize + nodeSize * 1 := by
        unfold nodeSize; omega
      rw [e1, this]
      constructor
      · intro e; exact Or.inr e
      · rintro (hsl0 | e)
        · exact absurd ((hsl p).2 (by rw [hlen]; exact hsl0)) (by simp [Tree.preorder])
        · exact e
    · simp only [hlen]; unfold nodeSize; omega
    · simp [Tree.depth]
  · rw [if_neg hg] at hadd
    simp at hadd

theorem addChild_SlotsInTree (a a2 : App) (h : Header) (t : Tree) (n fuel : Nat) (b v : Int)
    (isLeft : Bool) (hinv : SlotsInTree a h t n)
    (hex : ∃ p, Reach a.mem h.root p ∧ (a.mem p).value = v)
    (hem : ∀ p, Reach a.mem h.root p → (a.mem p).value = v → (a.mem p).side isLeft = 0)
    (hbv : b ≠ v) (hadd : a.addNode fuel b (some v) isLeft Remap.kept = Run.ret a2) :
    ∃ h2 t2 n2, SlotsInTree a2 h2 t2 n2 := by
  obtain ⟨hs1, hno, ho0⟩ := SlotsInTree_append a h t n b hinv
  obtain ⟨hh, hs, hsl, hlen, hd, hmap⟩ := hinv
  have hreach := mem_preorder_iff_Reach t h.root hs
  unfold App.addNode at hadd
  rw [appendNode_eq a h b hh] at hadd
  by_cases hg : h.length + nodeSize < 2 ^ 63
  · rw [if_pos hg] at hadd
    simp only at hadd
    obtain ⟨a1, ha1⟩ : ∃ a1 : App, a1 = App.mk (some { h with length := h.length + nodeSize })
        (setNode a.mem h.length { value := b, left := 0, right := 0 })
        (h.length + nodeSize) := ⟨_, rfl⟩
    rw [← ha1] at hadd
    have hadd : a1.linkAsChild fuel v h.length isLeft = some a2 := by
      cases hlc : a1.linkAsChild fuel v h.length isLeft with
      | none => rw [hlc] at hadd; simp [Run.ofOption] at hadd
      | some x =>
        rw [hlc] at hadd
        simp only [Run.ofOption, Run.ret.injEq] at hadd
        rw [hadd]
    have hp1 : a1.mapped = h.length + nodeSize := by rw [ha1]
    have hm1 : a1.mem = setNode a.mem h.length { value := b, left := 0, right := 0 } := by
      rw [ha1]
    have hh1 : a1.header = some { h with length := h.length + nodeSize } := by rw [ha1]
    have hsame : ∀ q ∈ t.preorder, a1.mem q = a.mem q := by
      intro q hq
      rw [hm1]
      exact setNode_other _ _ _ _ (fun e => hno (e ▸ hq))
    have ho : a1.mem h.length = { value := b, left := 0, right := 0 } := by
      rw [hm1]; exact setNode_same _ _ _
    have hs1b : Shape a1.mem h.root t := by rw [hm1]; exact hs1
    have hbig := linkAsChild_mono_le a1 a2 fuel (max fuel (t.depth + 1)) v h.length isLeft
      (le_max_left _ _) hadd
    rw [linkAsChild_Shape a1 { h with length := h.length + nodeSize } t
      (max fuel (t.depth + 1)) v h.length isLeft hh1 hs1b (by rw [ho]; exact hbv) (by rw [ho])
      (by rw [ho]) (le_max_right _ _)] at hbig
    simp only [Option.some.injEq] at hbig
    have hem1 : ∀ q ∈ t.preorder, (a1.mem q).value = v → (a1.mem q).side isLeft = 0 := by
      intro q hq hv
      rw [hsame q hq] at hv ⊢
      exact hem q ((hreach q).1 hq) hv
    rw [prune_eq_self v isLeft a1.mem t h.root hs1b hem1] at hbig
    subst hbig
    have hsg := Shape_graft v isLeft h.length a1.mem t.preorder ho0 (by rw [ho]; exact hbv)
      (by rw [ho]) (by rw [ho]) t h.root hs1b (fun q hq => hq) hem1
    have hgm := graft_mem v isLeft h.length a1.mem t h.root hs1b hem1
    have hE : ∃ p ∈ t.preorder, (a1.mem p).value = v := by
      obtain ⟨p, hp, hv⟩ := hex
      have hpt := (hreach p).2 hp
      exact ⟨p, hpt, by rw [hsame p hpt]; exact hv⟩
    refine ⟨{ h with length := h.length + nodeSize }, t.graft a1.mem v isLeft h.length, n + 1,
      hh1, hsg, ?_, ?_, ?_, hp1⟩
    · intro p
      rw [hgm p]
      have h1 : ({ h with length := h.length + nodeSize } : Header).length
          = headerSize + nodeSize * (n + 1) := by
        simp only [hlen]; unfold nodeSize; omega
      rw [h1, IsSlot_succ, ← hlen, hsl p]
      constructor
      · rintro (hp | ⟨hp, _⟩)
        · exact Or.inl hp
        · exact Or.inr hp
      · rintro (hp | hp)
        · exact Or.inl hp
        · exact Or.inr ⟨hp, hE⟩
    · simp only [hlen]; unfold nodeSize; omega
    · have := graft_depth v isLeft h.length a1.mem t
      omega
  · rw [if_neg hg] at hadd
    simp at hadd

/-- Every store in `Built` has the shape of a tree whose nodes are exactly
its slots. -/
theorem Built_SlotsInTree (a : App) (hb : Built a) : ∃ h t n, SlotsInTree a h t n := by
  induction hb with
  | fresh =>
    refine ⟨{ magic := magic, version := version, length := headerSize, root := 0 }, Tree.nil, 0,
      rfl, ?_, ?_, rfl, ?_, rfl⟩
    · simp [Shape]
    · intro p
      simp only [Tree.preorder, List.not_mem_nil, false_iff]
      unfold IsSlot
      omega
    · simp [Tree.depth]
  | addRoot a a2 h fuel b isLeft _ hh h0 hadd ih =>
    obtain ⟨h1, t, n, hinv⟩ := ih
    have e : h1 = h := by
      have := hinv.1
      rw [hh] at this
      exact (Option.some.inj this).symm
    subst e
    exact addRoot_SlotsInTree a a2 h1 t n fuel b isLeft hinv h0 hadd
  | addChild a a2 h fuel b v isLeft _ hh hex hem hbv hadd ih =>
    obtain ⟨h1, t, n, hinv⟩ := ih
    have e : h1 = h := by
      have := hinv.1
      rw [hh] at this
      exact (Option.some.inj this).symm
    subst e
    exact addChild_SlotsInTree a a2 h1 t n fuel b v isLeft hinv hex hem hbv hadd

/-! ### The scan of `detectOrphans` -/

theorem detectOrphansLoop_succ (a : App) (nodes : List Nat) (length fuel ptr index : Nat) :
    detectOrphansLoop a nodes length (fuel + 1) ptr index =
      if ptr < length then
        (if ptr ∈ nodes then OrphanLine.reachable index
          else OrphanLine.notReachable index ptr (a.getNode ptr).value)
          :: detectOrphansLoop a nodes length fuel (ptr + nodeSize) (index + 1)
      else [] := by
  rfl

/-- The scan logs one line per slot, in order. -/
theorem detectOrphansLoop_eq (a : App) (nodes : List Nat) (n : Nat) :
    ∀ (fuel i : Nat), i ≤ n → n - i ≤ fuel →
      detectOrphansLoop a nodes (headerSize + nodeSize * n) fuel (headerSize + nodeSize * i) i
        = (List.range' i (n - i)).map (scanLine a nodes) := by
  intro fuel
  induction fuel with
  | zero =>
    intro i hi hf
    have : n - i = 0 := by omega
    rw [this]
    rfl
  | succ k ih =>
    intro i hi hf
    rw [detectOrphansLoop_succ]
    by_cases hlt : i < n
    · have hc : headerSize + nodeSize * i < headerSize + nodeSize * n := by
        unfold nodeSize; omega
      rw [if_pos hc]
      have e1 : headerSize + nodeSize * i + nodeSize = headerSize + nodeSize * (i + 1) := by
        unfold nodeSize; omega
      rw [e1, ih (i + 1) (by omega) (by omega)]
      have e2 : n - i = (n - (i + 1)) + 1 := by omega
      rw [e2, List.range'_succ]
      simp only [List.map_cons, scanLine]
    · have hc : ¬ headerSize + nodeSize * i < headerSize + nodeSize * n := by
        unfold nodeSize; omega
      rw [if_neg hc]
      have : n - i = 0 := by omega
      rw [this]
      rfl

theorem detectOrphans_Shape (a : App) (h : Header) (t : Tree) (n fuel : Nat)
    (hh : a.header = some h) (hs : Shape a.mem h.root t) (hd : t.depth ≤ fuel)
    (hlen : h.length = headerSize + nodeSize * n) :
    a.detectOrphans fuel = some ((List.range n).map (scanLine a t.preorder)) := by
  unfold App.detectOrphans
  rw [(visited_Shape a h t fuel hh hs hd).1]
  simp only [hh]
  have hl := detectOrphansLoop_eq a t.preorder n h.length 0 (by omega)
    (by rw [hlen]; unfold headerSize nodeSize; omega)
  simp only [Nat.mul_zero, Nat.add_zero, Nat.sub_zero] at hl
  rw [← hlen] at hl
  rw [hl, List.range_eq_range']

/-! ### Orphans -/

/-- Counterexample to C9 as stated: two nodes, each appended and linked with
`linkAsRoot`.  The second link replaces the root reference, and
`detectOrphans` reports the first node, at offset 24, as not reachable. -/
theorem second_root_orphans_first :
    (twoRoots.bind fun a => a.detectOrphans 5)
      = some [OrphanLine.notReachable 0 24 65, OrphanLine.reachable 1] := by
  decide

/-- Claim C9, amended.  For every store built from a new store by `addNode`
steps during which the mapping keeps the address it had when the store was
opened (so that `a.header`, which the program takes once in `open`, stays the
header of the store) and that attach each new node at an empty place (as root
only while the tree is empty; as a child only under a parent value that some
reachable node holds, every reachable node holding it having the chosen child
slot empty, the new value differing from the parent value): the allocation
length is the header plus `n` nodes, the mapping covers the store up to that
length, and `detectOrphans`, with a recursion depth of at least `n`, logs
"reachable" for each of the `n` slots: zero orphans.  If one more node is
appended (the new length fitting an `int`, the mapping again keeping its
address) and not linked, the append returns the old allocation length as its
offset and `detectOrphans` logs "reachable" for the `n` slots and one line
"not reachable", for the new node at that offset. -/
theorem built_store_has_no_orphans (a : App) (hb : Built a) :
    ∃ h n, a.header = some h ∧ h.length = headerSize + nodeSize * n ∧
      a.mapped = h.length ∧
      (∀ fuel, n ≤ fuel →
        a.detectOrphans fuel = some ((List.range n).map OrphanLine.reachable)) ∧
      (∀ (newName : Int), h.length + nodeSize < 2 ^ 63 →
        ∃ a2, a.appendNode newName Remap.kept = Run.ret (h.length, a2) ∧
          ∀ fuel, n ≤ fuel →
            a2.detectOrphans fuel =
              some ((List.range n).map OrphanLine.reachable
                ++ [OrphanLine.notReachable n h.length newName])) := by
  obtain ⟨h, t, n, hinv⟩ := Built_SlotsInTree a hb
  obtain ⟨hs1, hno, _⟩ := SlotsInTree_append a h t n 0 hinv
  have happ := fun b => SlotsInTree_append a h t n b hinv
  obtain ⟨hh, hs, hsl, hlen, hd, hmap⟩ := hinv
  have hin : ∀ j, j < n → headerSize + nodeSize * j ∈ t.preorder := by
    intro j hj
    exact (hsl _).2 (by rw [hlen]; exact IsSlot_index n j hj)
  refine ⟨h, n, hh, hlen, hmap, ?_, ?_⟩
  · intro fuel hf
    rw [detectOrphans_Shape a h t n fuel hh hs (by omega) hlen]
    congr 1
    apply List.map_congr_left
    intro j hj
    rw [List.mem_range] at hj
    simp [scanLine, hin j hj]
  · intro b hg
    refine ⟨App.mk (some { h with length := h.length + nodeSize })
        (setNode a.mem h.length { value := b, left := 0, right := 0 })
        (h.length + nodeSize), ?_, ?_⟩
    · rw [appendNode_eq a h b hh, if_pos hg]
    · intro fuel hf
      have hl2 : ({ h with length := h.length + nodeSize } : Header).length
          = headerSize + nodeSize * (n + 1) := by
        simp only [hlen]; unfold nodeSize; omega
      rw [detectOrphans_Shape _ { h with length := h.length + nodeSize } t (n + 1) fuel rfl
        (happ b).1 (by omega) hl2]
      rw [List.range_succ, List.map_append]
      have hA : ∀ a2 : App, (List.range n).map (scanLine a2 t.preorder)
          = (List.range n).map OrphanLine.reachable := by
        intro a2
        apply List.map_congr_left
        intro j hj
        rw [List.mem_range] at hj
        simp [scanLine, hin j hj]
      have hnot : headerSize + nodeSize * n ∉ t.preorder := by rw [← hlen]; exact hno
      rw [hA]
      simp only [List.map_cons, List.map_nil, scanLine, hnot, if_false, App.getNode]
      rw [← hlen, setNode_same]

theorem scenario2_Built : Built (scenario2 65 66) := by
  have b1 : Built (scenario1 65) :=
    Built.addRoot freshApp (scenario1 65)
      { magic := magic, version := version, length := headerSize, root := 0 } 2 65 true
      Built.fresh rfl rfl (scenario_step1 2 65 true)
  refine Built.addChild (scenario1 65) (scenario2 65 66)
    { magic := magic, version := version, length := 48, root := 24 } 2 66 65 true b1 rfl
    ⟨24, Reach.here 24 (by decide), rfl⟩ ?_ (by decide) ?_
  · intro p hp _
    cases hp with
    | here _ _ => rfl
    | left _ _ _ hq => cases hq <;> contradiction
    | right _ _ _ hq => cases hq <;> contradiction
  · rw [scenario_step2]
    simp

/-- Instance of the amended C9: the store with root 65 and left child 66 has
two slots, both reachable, and its mapping covers its 72 bytes. -/
theorem built_store_has_no_orphans_witness :
    (scenario2 65 66).detectOrphans 2
      = some [OrphanLine.reachable 0, OrphanLine.reachable 1] ∧
    (scenario2 65 66).mapped = 72 := by
  obtain ⟨h, n, hh, hlen, hmap, hd, _⟩ :=
    built_store_has_no_orphans (scenario2 65 66) scenario2_Built
  have e : h.length = 72 := by
    have : some h = some { magic := magic, version := version, length := 72, root := 24 } := by
      rw [← hh]; rfl
    rw [Option.some.inj this]
  have hn : n = 2 := by
    rw [e] at hlen
    unfold headerSize nodeSize at hlen
    omega
  subst hn
  exact ⟨hd 2 (le_refl 2), by rw [hmap, e]⟩

end Mtree
